import Mathlib

/-!
# Fuzzy filtering and ranking in Kate's quick-open and branch dialogs

A shallow embedding of the two sort/filter proxies of the repository,

* `QuickOpenFilterProxyModel` (`kate/katequickopen.cpp`) and
* `BranchFilterModel` (`addons/project/branchesdialog.cpp`),

together with the part of the item-model framework they run on: a flat source
model whose rows carry a display string and an integer score role, a filter
pass that asks `filterAcceptsRow` for every source row, and the stable sort of
the accepted rows through `lessThan`.

`kfts::fuzzy_match` lives in `kfts_fuzzy_match.h`, which is not among the
source files; the proxies take it as a parameter of type `FuzzyMatch`. Where a
statement is about the matcher itself, the matcher is modelled from the
specification (namespace `kfts`).

The source model is taken to keep what `setData` writes under the score role,
as `lessThan` reads it back from there ("store the score for sorting later").

The second half of the file embeds two further parts of the repository:

* `KateProjectPlugin::projectForFileName` and `projectForUrl`
  (`kate/plugins/project/plugin_kateproject.cpp`), over a file system given by
  the answers to the queries the plugin makes (`FileSystem`); the `while` loop
  of `projectForUrl` runs on fuel;
* `KateExternalToolsPlugin::reload`, `commands`, `tools` and `toolForCommand`
  (`addons/externaltools/externaltoolsplugin.cpp`), over the configuration
  `reload` reads (`ToolsConfig`).
-/

namespace Kate

/-! ## The source model -/

/-- One top level row of the source model, seen through the roles the proxies
use: the `Qt::DisplayRole` string of column 0, the integer kept under the score
role (`KateQuickOpenModel::Score`, resp. `WeightRole = Qt::UserRole + 1`; a role
that was never written reads as `0` through `toInt()`), and the remaining data
of the row (path, url, icon), which is kept as one string. -/
structure Item where
  display : String
  score : Int
  payload : String
deriving DecidableEq, Repr

/-- The source model: its top level rows, in model order. -/
abbrev SourceModel := List Item

/-- A `QModelIndex` of column 0 under the root: `none` is the invalid index,
`some i` the index of row `i`. -/
abbrev QModelIndex := Option Nat

/-- The call `sourceModel()->index(row, 0, QModelIndex())`: valid exactly for
`0 ≤ row < rowCount()`. -/
def index (src : SourceModel) (row : Int) : QModelIndex :=
  if 0 ≤ row ∧ row < (src.length : Int) then some row.toNat else none

/-- The call `idx.data().toString()`: the display string of the row, the empty
string for an invalid index. -/
def displayData (src : SourceModel) (idx : QModelIndex) : String :=
  match idx with
  | none => ""
  | some i =>
    match src[i]? with
    | none => ""
    | some it => it.display

/-- The call `idx.data(ScoreRole).toInt()`: the stored score of the row, `0`
for an invalid index. -/
def scoreData (src : SourceModel) (idx : QModelIndex) : Int :=
  match idx with
  | none => 0
  | some i =>
    match src[i]? with
    | none => 0
    | some it => it.score

/-- The call `sourceModel()->setData(idx, score, ScoreRole)`: writes the score
role of the row and nothing else; does nothing for an invalid index. -/
def setData (src : SourceModel) (idx : QModelIndex) (score : Int) : SourceModel :=
  match idx with
  | none => src
  | some i =>
    match src[i]? with
    | none => src
    | some it => src.set i { it with score := score }

/-- The signature `bool fuzzy_match(pattern, str, int &outScore)`: from the
pattern, the string and the value of `outScore` on entry to the returned
boolean and the value of `outScore` on exit. -/
abbrev FuzzyMatch := String → String → Int → Bool × Int

/-! ## The two proxies -/

namespace QuickOpenFilterProxyModel

/-- `QuickOpenFilterProxyModel::lessThan`. -/
def lessThan (src : SourceModel) (sourceLeft sourceRight : QModelIndex) : Bool :=
  let l := scoreData src sourceLeft
  let r := scoreData src sourceRight
  decide (l < r)

/-- `QuickOpenFilterProxyModel::filterAcceptsRow`, with the source model it
writes to passed through. -/
def filterAcceptsRow (fuzzy_match : FuzzyMatch) (pattern : String) (src : SourceModel)
    (sourceRow : Int) : Bool × SourceModel :=
  if pattern.isEmpty then
    (true, src)
  else
    let fileName := displayData src (index src sourceRow)
    let res := fuzzy_match pattern fileName 0
    let idx := index src sourceRow
    (res.1, setData src idx res.2)

/-- `QuickOpenFilterProxyModel::setFilterText`: replaces the pattern (the model
reset around it makes the view filter and sort all rows again). -/
def setFilterText (_pattern : String) (text : String) : String := text

end QuickOpenFilterProxyModel

namespace BranchFilterModel

/-- `BranchFilterModel::lessThan`. -/
def lessThan (src : SourceModel) (sourceLeft sourceRight : QModelIndex) : Bool :=
  let l := scoreData src sourceLeft
  let r := scoreData src sourceRight
  decide (l < r)

/-- `BranchFilterModel::filterAcceptsRow`, with the source model it writes to
passed through. -/
def filterAcceptsRow (fuzzy_match : FuzzyMatch) (m_pattern : String) (src : SourceModel)
    (sourceRow : Int) : Bool × SourceModel :=
  if m_pattern.isEmpty then
    (true, src)
  else
    let idx := index src sourceRow
    let string := displayData src idx
    let res := fuzzy_match m_pattern string 0
    (res.1, setData src idx res.2)

/-- `BranchFilterModel::setFilterString`. -/
def setFilterString (_m_pattern : String) (string : String) : String := string

end BranchFilterModel

/-! ## The filter pass and the sort of the proxy framework -/

/-- The filter pass of `QSortFilterProxyModel` after a model reset: every
source row, in source order, is put to `filterAcceptsRow`; the accepted source
rows are collected in source order and the source model is threaded through
the calls. -/
def filterRows (accepts : SourceModel → Int → Bool × SourceModel) :
    List Nat → SourceModel → List Nat × SourceModel
  | [], src => ([], src)
  | row :: rest, src =>
    let r := accepts src (row : Int)
    let k := filterRows accepts rest r.2
    (if r.1 then row :: k.1 else k.1, k.2)

/-- Insertion step of the stable sort: `x` stood before every element of the
already sorted list and passes exactly the elements that `lt` puts strictly
before it. -/
def insertStable {α : Type} (lt : α → α → Bool) (x : α) : List α → List α
  | [] => [x]
  | y :: ys => if lt y x then y :: insertStable lt x ys else x :: y :: ys

/-- A stable sort by the strict comparator `lt` (what `std::stable_sort` gives
the proxy). -/
def stableSort {α : Type} (lt : α → α → Bool) : List α → List α
  | [] => []
  | x :: xs => insertStable lt x (stableSort lt xs)

/-- The sort orders of `Qt::SortOrder`. -/
inductive SortOrder where
  | AscendingOrder
  | DescendingOrder
deriving DecidableEq, Repr

/-- The sort of the accepted rows: by `lessThan` for the ascending order, by
`lessThan` with its arguments swapped for the descending one. -/
def sortRows (less : SourceModel → QModelIndex → QModelIndex → Bool) (order : SortOrder)
    (src : SourceModel) (rows : List Nat) : List Nat :=
  match order with
  | SortOrder.AscendingOrder => stableSort (fun a b => less src (some a) (some b)) rows
  | SortOrder.DescendingOrder => stableSort (fun a b => less src (some b) (some a)) rows

/-- The sort order a tree view hands to its model when `setSortingEnabled(true)`
is called on a fresh view: column 0, descending (the initial sort indicator of
the header). Both dialogs hide the header, so the order never changes. -/
def viewSortOrder : SortOrder := SortOrder.DescendingOrder

/-- What a full pass leaves: the source model after all `filterAcceptsRow`
calls and the accepted source rows in the order the view presents them. -/
structure Pass where
  model : SourceModel
  accepted : List Nat
  rows : List Nat
deriving DecidableEq, Repr

/-- One full pass: filter all rows, then sort the accepted ones on the scores
the source model holds after the filter calls. -/
def runPass (accepts : SourceModel → Int → Bool × SourceModel)
    (less : SourceModel → QModelIndex → QModelIndex → Bool) (src : SourceModel) : Pass :=
  let f := filterRows accepts (List.range src.length) src
  { model := f.2, accepted := f.1, rows := sortRows less viewSortOrder f.2 f.1 }

/-- A full pass of the quick-open proxy with the given pattern. -/
def QuickOpenFilterProxyModel.pass (fuzzy_match : FuzzyMatch) (pattern : String)
    (src : SourceModel) : Pass :=
  runPass (QuickOpenFilterProxyModel.filterAcceptsRow fuzzy_match pattern)
    QuickOpenFilterProxyModel.lessThan src

/-- A full pass of the branch proxy with the given pattern. -/
def BranchFilterModel.pass (fuzzy_match : FuzzyMatch) (m_pattern : String)
    (src : SourceModel) : Pass :=
  runPass (BranchFilterModel.filterAcceptsRow fuzzy_match m_pattern)
    BranchFilterModel.lessThan src

/-- The display strings of the presented rows, in presented order. -/
def Pass.labels (p : Pass) : List String :=
  p.rows.map (fun i => displayData p.model (some i))

/-- The stored scores of the presented rows, in presented order. -/
def Pass.scores (p : Pass) : List Int :=
  p.rows.map (fun i => scoreData p.model (some i))

/-- The item with its score role replaced by the score the matcher gives its
display string for the pattern (with `outScore` entering as `0`). -/
def rescore (fuzzy_match : FuzzyMatch) (pattern : String) (it : Item) : Item :=
  { it with score := (fuzzy_match pattern it.display 0).2 }

/-! ## The matcher, as the specification describes it -/

namespace kfts

/-- Case folding of one character: the letters `A` to `Z` go to lower case,
every other character stays as it is. -/
def caseFold (c : Char) : Char := c.toLower

/-- Modelled from the spec: `kfts_fuzzy_match.h` is missing from the source
files. The `matched` flag of section 4.1 on character lists: the empty query
always matches; otherwise every character of the query, compared
case-insensitively, must appear in the text in order, not necessarily
contiguously, and the result is `false` when a query character stays
unmatched. Each query character is taken at its first occurrence after the
previous one. -/
def scan : List Char → List Char → Bool
  | [], _ => true
  | _ :: _, [] => false
  | q :: qs, t :: ts =>
    if caseFold q = caseFold t then scan qs ts else scan (q :: qs) ts

/-- Modelled from the spec: the `matched` flag of `match(query, text)`. -/
def matched (query text : String) : Bool := scan query.data text.data

/-- Modelled from the spec: `kfts::fuzzy_match` as the proxies call it. The
boolean is the `matched` flag; the score of the empty query is `0`, and the
score of a non-empty query, whose weights section 9 leaves open, is the
parameter `score`. -/
def fuzzy_match (score : String → String → Int) : FuzzyMatch :=
  fun pattern str _ => (matched pattern str, if pattern.isEmpty then 0 else score pattern str)

/-- Modelled from the spec: the weights of the scoring in section 4.1, which
section 9 leaves to the implementation: the bonus per consecutive match, the
bonus for a match at the start of the text or right after a separator, and the
penalty per unmatched character between matched characters. -/
structure Weights where
  consecutive : Int
  boundary : Int
  gap : Int

/-- Modelled from the spec: the separators of section 4.1. -/
def isSeparator (c : Char) : Bool := c == '/' || c == '_' || c == '-' || c == ' '

/-- Modelled from the spec: a position is at the start of the text or right
after a separator. -/
def atBoundary : Option Char → Bool
  | none => true
  | some c => isSeparator c

/-- Modelled from the spec: the rewards and penalties of section 4.1 summed
along the first-occurrence alignment. `prev` is the text character before the
current one, `prevMatched` says whether it was matched, `started` whether a
query character has been matched yet (gaps count between matched characters
only). -/
def scoreFrom (w : Weights) : Option Char → Bool → Bool → List Char → List Char → Int
  | _, _, _, [], _ => 0
  | _, _, _, _ :: _, [] => 0
  | prev, prevMatched, started, q :: qs, t :: ts =>
    if caseFold q = caseFold t then
      (if prevMatched then w.consecutive else 0) + (if atBoundary prev then w.boundary else 0)
        + scoreFrom w (some t) true true qs ts
    else
      (if started then - w.gap else 0) + scoreFrom w (some t) false started (q :: qs) ts

/-- Modelled from the spec: the score of a query on a text under the weights
`w`. -/
def weightedScore (w : Weights) (query text : String) : Int :=
  scoreFrom w none false false query.data text.data

end kfts

/-! ## Sample data -/

/-- The three candidates of the scenario in section 8 of the specification, as
a freshly filled model. -/
def sampleFiles : SourceModel :=
  [⟨"main.cpp", 0, "/src/main.cpp"⟩, ⟨"Main.hpp", 0, "/src/Main.hpp"⟩,
    ⟨"README.md", 0, "/README.md"⟩]

/-- Two candidates, freshly filled: `axxb` before `ab`. -/
def twoLabels : SourceModel := [⟨"axxb", 0, ""⟩, ⟨"ab", 0, ""⟩]

/-- A scoring used for concrete runs: longer texts score lower. -/
def sampleScore : String → String → Int := fun _ text => 100 - (text.length : Int)

/-! ## Highlight spans, as the specification describes them -/

namespace kfts

/-- Modelled from the spec: `kfts_fuzzy_match.h` is missing from the source
files. The offsets in the text of the characters considered matched, for the
alignment of `scan` (each query character at its first occurrence after the
previous one); `i` is the offset of the head of the text. -/
def matchPositions : Nat → List Char → List Char → List Nat
  | _, [], _ => []
  | _, _ :: _, [] => []
  | i, q :: qs, t :: ts =>
    if caseFold q = caseFold t then i :: matchPositions (i + 1) qs ts
    else matchPositions (i + 1) (q :: qs) ts

/-- Modelled from the spec: puts the offset `p`, which lies before all offsets
of the spans, in front of the spans `(start, length)`: it extends the first span
when it is adjacent to it and opens a span of its own otherwise. -/
def addToSpans (p : Nat) : List (Nat × Nat) → List (Nat × Nat)
  | [] => [(p, 1)]
  | (start, len) :: rest =>
    if p + 1 = start then (p, len + 1) :: rest else (p, 1) :: (start, len) :: rest

/-- Modelled from the spec: the maximal contiguous runs of a list of offsets,
as spans `(start, length)`. -/
def spansOf : List Nat → List (Nat × Nat)
  | [] => []
  | p :: ps => addToSpans p (spansOf ps)

/-- Modelled from the spec: the highlight spans of section 4.1 for a query and
a text: the maximal contiguous runs of matched characters of the text. These
are the runs the display strings of the delegates wrap in the bold tags. -/
def highlightSpans (query text : String) : List (Nat × Nat) :=
  spansOf (matchPositions 0 query.data text.data)

/-- The characters of the text that the spans cover, read span by span. -/
def highlighted (text : List Char) (spans : List (Nat × Nat)) : List Char :=
  spans.flatMap (fun s => (text.drop s.1).take s.2)

end kfts

/-! ## The project plugin (`kate/plugins/project/plugin_kateproject.cpp`) -/

/-- What the plugin asks of a `KUrl`. -/
structure KUrl where
  isEmpty : Bool
  isLocalFile : Bool
  toLocalFile : String
deriving DecidableEq, Repr

/-- The file system as the calls of the plugin observe it:
`QFileInfo(f).canonicalFilePath()` (empty for a file that does not exist),
`QFileInfo(f).canonicalPath()`, the absolute path of `QFileInfo(f).absoluteDir()`,
`QDir(dir).exists(name)`, the absolute path after `QDir(dir).cdUp()` (`none` when
`cdUp` returns false), and whether `KateProject::load` succeeds on a file. -/
structure FileSystem where
  canonicalFilePath : String → String
  canonicalPath : String → String
  absoluteDir : String → String
  entryExists : String → String → Bool
  cdUp : String → Option String
  load : String → Bool

/-- The members of `KateProjectPlugin` the two lookups touch. A `KateProject *`
is the number of the allocation that made it. `m_fileName2Project` is the map
from canonical file names to projects, `watchedPaths` the paths of
`m_fileWatcher`, `projectCreated` the projects the signal was emitted for, in
order, `deleteLater` the projects handed to `triggerDeleteLater`, `allocated`
the number of `new KateProject ()` so far. -/
structure KateProjectPlugin where
  m_fileName2Project : List (String × Nat)
  watchedPaths : List String
  projectCreated : List Nat
  deleteLater : List Nat
  allocated : Nat
deriving DecidableEq, Repr

namespace KateProjectPlugin

/-- The call `m_fileName2Project.contains (key)`. -/
def mapContains (m : List (String × Nat)) (key : String) : Bool :=
  m.any (fun e => e.1 = key)

/-- The call `m_fileName2Project.value (key)`: the stored project, `none` (the
null pointer) for a key that is not in the map. -/
def mapValue (m : List (String × Nat)) (key : String) : Option Nat :=
  (m.find? (fun e => e.1 = key)).map (fun e => e.2)

/-- The assignment `m_fileName2Project[key] = project`. -/
def mapInsert (m : List (String × Nat)) (key : String) (project : Nat) :
    List (String × Nat) :=
  (key, project) :: m.filter (fun e => ¬ e.1 = key)

/-- The call `m_fileWatcher.addPath (path)`: the paths are a set, and an empty
path is not added. -/
def addPath (watched : List String) (path : String) : List String :=
  if path.isEmpty ∨ path ∈ watched then watched else path :: watched

/-- `KateProjectPlugin::projectForFileName`: the returned project (`none` for
`0`) and the plugin after the call. -/
def projectForFileName (self : KateProjectPlugin) (fs : FileSystem) (fileName : String) :
    Option Nat × KateProjectPlugin :=
  let canonicalFilePath := fs.canonicalFilePath fileName
  if canonicalFilePath.isEmpty then
    (none, self)
  else if mapContains self.m_fileName2Project canonicalFilePath then
    (mapValue self.m_fileName2Project canonicalFilePath, self)
  else
    let project := self.allocated
    let self1 := { self with allocated := self.allocated + 1 }
    if ! fs.load canonicalFilePath then
      (none, { self1 with deleteLater := project :: self1.deleteLater })
    else
      (some project,
        { self1 with
          m_fileName2Project := mapInsert self1.m_fileName2Project canonicalFilePath project
          watchedPaths := addPath self1.watchedPaths (fs.canonicalPath canonicalFilePath)
          projectCreated := self1.projectCreated ++ [project] })

/-- How the upward search of `projectForUrl` leaves its loop: with the directory
in which `.kateproject` was found, if any, and the recursion guard
`seenDirectories` (latest first), which holds the directories examined. -/
structure Search where
  found : Option String
  seenDirectories : List String
deriving DecidableEq, Repr

/-- The `while` loop of `projectForUrl`, with `fileDirectory` as its absolute
path. One unit of fuel is one evaluation of the loop condition; `none` means
the fuel ran out. -/
def searchUpwards (fs : FileSystem) : Nat → List String → String → Option Search
  | 0, _, _ => none
  | fuel + 1, seenDirectories, fileDirectory =>
    if fileDirectory ∈ seenDirectories then
      some { found := none, seenDirectories := seenDirectories }
    else
      let seen := fileDirectory :: seenDirectories
      if fs.entryExists fileDirectory ".kateproject" then
        some { found := some fileDirectory, seenDirectories := seen }
      else
        match fs.cdUp fileDirectory with
        | none => some { found := none, seenDirectories := seen }
        | some up => searchUpwards fs fuel seen up

/-- What a call of `projectForUrl` leaves: the returned project (`none` for `0`),
the plugin after the call and the directories the search examined. -/
structure UrlResult where
  project : Option Nat
  plugin : KateProjectPlugin
  examined : List String
deriving DecidableEq, Repr

/-- `KateProjectPlugin::projectForUrl`; `none` means the fuel of the loop ran
out. -/
def projectForUrl (self : KateProjectPlugin) (fs : FileSystem) (fuel : Nat) (url : KUrl) :
    Option UrlResult :=
  if url.isEmpty || ! url.isLocalFile then
    some { project := none, plugin := self, examined := [] }
  else
    match searchUpwards fs fuel [] (fs.absoluteDir url.toLocalFile) with
    | none => none
    | some s =>
      match s.found with
      | some dir =>
        let r := projectForFileName self fs (dir ++ "/.kateproject")
        some { project := r.1, plugin := r.2, examined := s.seenDirectories }
      | none => some { project := none, plugin := self, examined := s.seenDirectories }

/-- The directory `k` steps of `cdUp` above `dir`, if every step succeeds. -/
def nthUp (fs : FileSystem) : Nat → String → Option String
  | 0, dir => some dir
  | k + 1, dir =>
    match fs.cdUp dir with
    | none => none
    | some up => nthUp fs k up

/-- The plugin right after construction, before any project is loaded. -/
def initial : KateProjectPlugin :=
  { m_fileName2Project := [], watchedPaths := [], projectCreated := [], deleteLater := [],
    allocated := 0 }

end KateProjectPlugin

/-! ## The external tools plugin (`addons/externaltools/externaltoolsplugin.cpp`) -/

/-- The fields of a `KateExternalTool` the plugin reads, and its remaining
settings as one string. -/
structure KateExternalTool where
  cmdname : String
  hasexec : Bool
  settings : String
deriving DecidableEq, Repr

/-- The configuration `reload` reads: the entry `tools` of the group `Global`
and, for the group of each entry, the tool `KateExternalTool::load` fills from
it. -/
structure ToolsConfig where
  tools : List String
  load : String → KateExternalTool

/-- The members `m_tools` and `m_commands` of `KateExternalToolsPlugin`. -/
structure KateExternalToolsPlugin where
  m_tools : List KateExternalTool
  m_commands : List String
deriving DecidableEq, Repr

namespace KateExternalToolsPlugin

/-- The `for` loop of `reload` over the entries of `tools`. -/
def reloadLoop (load : String → KateExternalTool) :
    List String → KateExternalToolsPlugin → KateExternalToolsPlugin
  | [], self => self
  | it :: rest, self =>
    if it = "---" then
      reloadLoop load rest self
    else
      let t := load it
      let self1 := { self with m_tools := self.m_tools ++ [t] }
      if t.hasexec && ! t.cmdname.isEmpty then
        reloadLoop load rest { self1 with m_commands := self1.m_commands ++ [t.cmdname] }
      else
        reloadLoop load rest self1

/-- `KateExternalToolsPlugin::reload`. -/
def reload (self : KateExternalToolsPlugin) (config : ToolsConfig) : KateExternalToolsPlugin :=
  reloadLoop config.load config.tools { self with m_commands := [] }

/-- `KateExternalToolsPlugin::commands`. -/
def commands (self : KateExternalToolsPlugin) : List String := self.m_commands

/-- `KateExternalToolsPlugin::tools`. -/
def tools (self : KateExternalToolsPlugin) : List KateExternalTool := self.m_tools

/-- The loop of `toolForCommand` over `m_tools`. -/
def findTool (cmd : String) : List KateExternalTool → Option KateExternalTool
  | [] => none
  | tool :: rest => if tool.cmdname = cmd then some tool else findTool cmd rest

/-- `KateExternalToolsPlugin::toolForCommand`; `none` is `nullptr`. -/
def toolForCommand (self : KateExternalToolsPlugin) (cmd : String) : Option KateExternalTool :=
  findTool cmd self.m_tools

end KateExternalToolsPlugin

/-- A small file system: the project file `/p/.kateproject`, the source file
`/p/src/a.cpp`, and a root whose `cdUp` stays at the root. -/
def sampleFs : FileSystem where
  canonicalFilePath := fun f => if f = "/p/.kateproject" then f else ""
  canonicalPath := fun f => if f = "/p/.kateproject" then "/p" else ""
  absoluteDir := fun f => if f = "/p/src/a.cpp" then "/p/src" else "/"
  entryExists := fun dir name => decide (dir = "/p" ∧ name = ".kateproject")
  cdUp := fun dir =>
    if dir = "/p/src" then some "/p"
    else if dir = "/p" then some "/"
    else if dir = "/" then some "/"
    else none
  load := fun f => decide (f = "/p/.kateproject")

/-- The directories of `sampleFs`. -/
def sampleDirs : List String := ["/p/src", "/p", "/"]

/-- The url of the source file of `sampleFs`. -/
def sampleUrl : KUrl := { isEmpty := false, isLocalFile := true, toLocalFile := "/p/src/a.cpp" }

/-- A tools configuration with a separator, a tool without a command name and a
tool without an executable. -/
def sampleConfig : ToolsConfig where
  tools := ["git", "---", "fmt", "doc"]
  load := fun group =>
    if group = "git" then { cmdname := "git-cola", hasexec := true, settings := "" }
    else if group = "fmt" then { cmdname := "", hasexec := true, settings := "" }
    else { cmdname := "doc", hasexec := false, settings := "" }

/-! ## Basic facts about the source model -/

theorem index_natCast (src : SourceModel) (i : Nat) :
    index src (i : Int) = if i < src.length then some i else none := by
  unfold index
  by_cases h : i < src.length
  · have h2 : (0 : Int) ≤ (i : Int) ∧ (i : Int) < (src.length : Int) := by omega
    rw [if_pos h2, if_pos h]
    simp
  · have h2 : ¬ ((0 : Int) ≤ (i : Int) ∧ (i : Int) < (src.length : Int)) := by omega
    rw [if_neg h2, if_neg h]

theorem index_lt (src : SourceModel) (row : Int) (i : Nat) (h : index src row = some i) :
    i < src.length ∧ row = (i : Int) := by
  unfold index at h
  split at h
  · rename_i hr
    have e : row.toNat = i := by simpa using h
    omega
  · exact absurd h (by simp)

theorem displayData_index_natCast (src : SourceModel) (i : Nat) :
    displayData src (index src (i : Int)) = displayData src (some i) := by
  rw [index_natCast]
  by_cases h : i < src.length
  · rw [if_pos h]
  · rw [if_neg h]
    have e : src[i]? = none := List.getElem?_eq_none (by omega)
    simp [displayData, e]

theorem length_setData (src : SourceModel) (idx : QModelIndex) (s : Int) :
    (setData src idx s).length = src.length := by
  unfold setData
  cases idx with
  | none => rfl
  | some i =>
    cases h : src[i]? with
    | none => simp [h]
    | some it => simp [h]

theorem getElem?_setData (src : SourceModel) (idx : QModelIndex) (s : Int) (j : Nat) :
    (setData src idx s)[j]? =
      if idx = some j then (src[j]?).map (fun it => { it with score := s }) else src[j]? := by
  unfold setData
  cases idx with
  | none => simp
  | some i =>
    cases h : src[i]? with
    | none =>
      by_cases e : i = j
      · subst e; simp [h]
      · simp [h, e]
    | some it =>
      have hi : i < src.length := by
        by_contra hc
        have e : src[i]? = none := List.getElem?_eq_none (by omega)
        rw [e] at h
        exact absurd h (by simp)
      by_cases e : i = j
      · subst e; simp [List.getElem?_set, h, hi]
      · simp [h, List.getElem?_set, e]

theorem displayData_setData (src : SourceModel) (idx : QModelIndex) (s : Int)
    (k : QModelIndex) : displayData (setData src idx s) k = displayData src k := by
  cases k with
  | none => rfl
  | some j =>
    simp only [displayData, getElem?_setData]
    by_cases e : idx = some j
    · rw [if_pos e]
      cases src[j]? <;> rfl
    · rw [if_neg e]

theorem index_setData (src : SourceModel) (idx : QModelIndex) (s : Int) (row : Int) :
    index (setData src idx s) row = index src row := by
  unfold index
  rw [length_setData]

/-! ## The two proxies run the same code -/

theorem BranchFilterModel.filterAcceptsRow_eq :
    BranchFilterModel.filterAcceptsRow = QuickOpenFilterProxyModel.filterAcceptsRow := rfl

theorem BranchFilterModel.lessThan_eq :
    BranchFilterModel.lessThan = QuickOpenFilterProxyModel.lessThan := rfl

theorem BranchFilterModel.pass_eq :
    BranchFilterModel.pass = QuickOpenFilterProxyModel.pass := rfl

/-! ## One call of `filterAcceptsRow` -/

theorem filterAcceptsRow_of_isEmpty (fm : FuzzyMatch) (pattern : String) (src : SourceModel)
    (row : Int) (h : pattern.isEmpty = true) :
    QuickOpenFilterProxyModel.filterAcceptsRow fm pattern src row = (true, src) := by
  unfold QuickOpenFilterProxyModel.filterAcceptsRow
  rw [if_pos h]

theorem filterAcceptsRow_of_not_isEmpty (fm : FuzzyMatch) (pattern : String)
    (src : SourceModel) (row : Int) (h : pattern.isEmpty = false) :
    QuickOpenFilterProxyModel.filterAcceptsRow fm pattern src row =
      ((fm pattern (displayData src (index src row)) 0).1,
        setData src (index src row) (fm pattern (displayData src (index src row)) 0).2) := by
  unfold QuickOpenFilterProxyModel.filterAcceptsRow
  rw [if_neg (by simp [h])]

theorem isEmpty_eq_false_of_ne (pattern : String) (h : pattern ≠ "") :
    pattern.isEmpty = false := by
  cases e : pattern.isEmpty with
  | false => rfl
  | true => exact absurd ((String.isEmpty_iff pattern).mp e) h

/-! ## The filter pass -/

theorem filterRows_of_isEmpty (fm : FuzzyMatch) (pattern : String)
    (h : pattern.isEmpty = true) (rows : List Nat) (src : SourceModel) :
    filterRows (QuickOpenFilterProxyModel.filterAcceptsRow fm pattern) rows src
      = (rows, src) := by
  induction rows with
  | nil => rfl
  | cons r rest ih =>
    simp only [filterRows, filterAcceptsRow_of_isEmpty fm pattern src _ h, ih]
    simp

theorem filterRows_accepted (fm : FuzzyMatch) (pattern : String)
    (h : pattern.isEmpty = false) (rows : List Nat) (src : SourceModel) :
    (filterRows (QuickOpenFilterProxyModel.filterAcceptsRow fm pattern) rows src).1
      = rows.filter (fun r => (fm pattern (displayData src (some r)) 0).1) := by
  induction rows generalizing src with
  | nil => rfl
  | cons r rest ih =>
    simp only [filterRows, filterAcceptsRow_of_not_isEmpty fm pattern src _ h, ih,
      displayData_setData, displayData_index_natCast, List.filter_cons]

theorem filterRows_model (fm : FuzzyMatch) (pattern : String)
    (h : pattern.isEmpty = false) (rows : List Nat) (src : SourceModel) (j : Nat) :
    (filterRows (QuickOpenFilterProxyModel.filterAcceptsRow fm pattern) rows src).2[j]?
      = (src[j]?).map (fun it => if j ∈ rows then rescore fm pattern it else it) := by
  induction rows generalizing src with
  | nil => simp [filterRows]
  | cons r rest ih =>
    simp only [filterRows, filterAcceptsRow_of_not_isEmpty fm pattern src _ h, ih,
      getElem?_setData, index_natCast, displayData_index_natCast]
    by_cases hr : r < src.length
    · rw [if_pos hr]
      by_cases e : r = j
      · subst e
        have hg : src[r]? = some (src.get ⟨r, hr⟩) := by simp
        simp [hg, rescore, displayData]
      · have e2 : ¬ (some r = some j) := by simpa using e
        rw [if_neg e2]
        have e3 : ∀ it : Item, (if j ∈ r :: rest then rescore fm pattern it else it)
            = (if j ∈ rest then rescore fm pattern it else it) := by
          intro it
          have : (j ∈ r :: rest) ↔ (j ∈ rest) := by
            simp only [List.mem_cons]
            constructor
            · rintro (h1 | h1)
              · exact absurd h1.symm e
              · exact h1
            · intro h1; exact Or.inr h1
          simp only [this]
        simp only [e3]
    · rw [if_neg hr]
      simp only [if_neg (show ¬ ((none : Option Nat) = some j) by simp)]
      by_cases hj : j < src.length
      · have e : r ≠ j := by omega
        have e3 : ∀ it : Item, (if j ∈ r :: rest then rescore fm pattern it else it)
            = (if j ∈ rest then rescore fm pattern it else it) := by
          intro it
          have : (j ∈ r :: rest) ↔ (j ∈ rest) := by
            simp only [List.mem_cons]
            constructor
            · rintro (h1 | h1)
              · exact absurd h1.symm e
              · exact h1
            · intro h1; exact Or.inr h1
          simp only [this]
        simp only [e3]
      · have e : src[j]? = none := List.getElem?_eq_none (by omega)
        simp [e]

theorem pass_model_of_not_isEmpty (fm : FuzzyMatch) (pattern : String)
    (h : pattern.isEmpty = false) (src : SourceModel) :
    (QuickOpenFilterProxyModel.pass fm pattern src).model = src.map (rescore fm pattern) := by
  apply List.ext_getElem?
  intro j
  show (filterRows (QuickOpenFilterProxyModel.filterAcceptsRow fm pattern)
    (List.range src.length) src).2[j]? = _
  rw [filterRows_model fm pattern h, List.getElem?_map]
  by_cases hj : j < src.length
  · have hm : j ∈ List.range src.length := List.mem_range.mpr hj
    simp only [if_pos hm]
  · have e : src[j]? = none := List.getElem?_eq_none (by omega)
    simp [e]

theorem pass_accepted_of_not_isEmpty (fm : FuzzyMatch) (pattern : String)
    (h : pattern.isEmpty = false) (src : SourceModel) :
    (QuickOpenFilterProxyModel.pass fm pattern src).accepted
      = (List.range src.length).filter
          (fun r => (fm pattern (displayData src (some r)) 0).1) :=
  filterRows_accepted fm pattern h (List.range src.length) src

theorem pass_of_isEmpty (fm : FuzzyMatch) (pattern : String)
    (h : pattern.isEmpty = true) (src : SourceModel) :
    (QuickOpenFilterProxyModel.pass fm pattern src).model = src ∧
    (QuickOpenFilterProxyModel.pass fm pattern src).accepted = List.range src.length := by
  have e := filterRows_of_isEmpty fm pattern h (List.range src.length) src
  constructor
  · show (filterRows (QuickOpenFilterProxyModel.filterAcceptsRow fm pattern)
      (List.range src.length) src).2 = _
    rw [e]
  · show (filterRows (QuickOpenFilterProxyModel.filterAcceptsRow fm pattern)
      (List.range src.length) src).1 = _
    rw [e]

theorem pass_rows_eq (fm : FuzzyMatch) (pattern : String) (src : SourceModel) :
    (QuickOpenFilterProxyModel.pass fm pattern src).rows
      = stableSort
          (fun a b => QuickOpenFilterProxyModel.lessThan
            (QuickOpenFilterProxyModel.pass fm pattern src).model (some b) (some a))
          (QuickOpenFilterProxyModel.pass fm pattern src).accepted := rfl

/-! ## The stable sort -/

theorem perm_insertStable {α : Type} (lt : α → α → Bool) (x : α) (l : List α) :
    (insertStable lt x l).Perm (x :: l) := by
  induction l with
  | nil => exact List.Perm.refl _
  | cons y ys ih =>
    unfold insertStable
    by_cases h : lt y x = true
    · rw [if_pos h]
      exact (List.Perm.cons y ih).trans (List.Perm.swap x y ys)
    · rw [if_neg h]

theorem perm_stableSort {α : Type} (lt : α → α → Bool) (l : List α) :
    (stableSort lt l).Perm l := by
  induction l with
  | nil => exact List.Perm.refl _
  | cons x xs ih =>
    unfold stableSort
    exact (perm_insertStable lt x _).trans (List.Perm.cons x ih)

theorem insertStable_descending {α : Type} (key : α → Int) (x : α) (l : List α)
    (hl : l.Pairwise (fun a b => key b ≤ key a)) :
    (insertStable (fun a b => decide (key b < key a)) x l).Pairwise
      (fun a b => key b ≤ key a) := by
  induction l with
  | nil => simp [insertStable]
  | cons y ys ih =>
    unfold insertStable
    have hy := List.pairwise_cons.mp hl
    by_cases h : key x < key y
    · rw [if_pos (by simpa using h)]
      refine List.pairwise_cons.mpr ⟨?_, ih hy.2⟩
      intro b hb
      rcases List.mem_cons.mp ((perm_insertStable _ x ys).subset hb) with e | e
      · subst e; omega
      · exact hy.1 b e
    · rw [if_neg (by simpa using h)]
      refine List.pairwise_cons.mpr ⟨?_, hl⟩
      intro b hb
      rcases List.mem_cons.mp hb with e | e
      · subst e; omega
      · have := hy.1 b e
        omega

theorem stableSort_descending {α : Type} (key : α → Int) (l : List α) :
    (stableSort (fun a b => decide (key b < key a)) l).Pairwise
      (fun a b => key b ≤ key a) := by
  induction l with
  | nil => simp [stableSort]
  | cons x xs ih =>
    unfold stableSort
    exact insertStable_descending key x _ ih

theorem stableSort_eq_self {α : Type} (lt : α → α → Bool) (l : List α)
    (hl : l.Pairwise (fun a b => lt b a = false)) : stableSort lt l = l := by
  induction l with
  | nil => rfl
  | cons x xs ih =>
    have hx := List.pairwise_cons.mp hl
    unfold stableSort
    rw [ih hx.2]
    cases xs with
    | nil => rfl
    | cons y ys =>
      unfold insertStable
      rw [if_neg (by simp [hx.1 y (List.mem_cons_self y ys)])]

theorem lessThan_eq_decide (src : SourceModel) (l r : QModelIndex) :
    QuickOpenFilterProxyModel.lessThan src l r = decide (scoreData src l < scoreData src r) :=
  rfl

theorem pass_rows_descending (fm : FuzzyMatch) (pattern : String) (src : SourceModel) :
    (QuickOpenFilterProxyModel.pass fm pattern src).rows.Pairwise
      (fun a b =>
        scoreData (QuickOpenFilterProxyModel.pass fm pattern src).model (some b)
          ≤ scoreData (QuickOpenFilterProxyModel.pass fm pattern src).model (some a)) := by
  rw [pass_rows_eq]
  exact stableSort_descending
    (fun i => scoreData (QuickOpenFilterProxyModel.pass fm pattern src).model (some i)) _

theorem pass_rows_perm (fm : FuzzyMatch) (pattern : String) (src : SourceModel) :
    (QuickOpenFilterProxyModel.pass fm pattern src).rows.Perm
      (QuickOpenFilterProxyModel.pass fm pattern src).accepted := by
  rw [pass_rows_eq]
  exact perm_stableSort _ _

theorem displayData_eq_map (src : SourceModel) (i : Nat) :
    displayData src (some i) = ((src.map Item.display)[i]?).getD "" := by
  simp only [displayData, List.getElem?_map]
  cases src[i]? <;> rfl

theorem scoreData_rescore (fm : FuzzyMatch) (pattern : String) (src : SourceModel) (i : Nat) :
    scoreData (src.map (rescore fm pattern)) (some i)
      = (((src.map Item.display)[i]?).map (fun d => (fm pattern d 0).2)).getD 0 := by
  simp only [scoreData, List.getElem?_map]
  cases src[i]? <;> rfl

theorem pass_scoreData_of_not_isEmpty (fm : FuzzyMatch) (pattern : String)
    (h : pattern.isEmpty = false) (src : SourceModel) (i : Nat) (hi : i < src.length) :
    scoreData (QuickOpenFilterProxyModel.pass fm pattern src).model (some i)
      = (fm pattern (displayData src (some i)) 0).2 := by
  rw [pass_model_of_not_isEmpty fm pattern h, scoreData_rescore, displayData_eq_map]
  have hg : (src.map Item.display)[i]? = some ((src.get ⟨i, hi⟩).display) := by
    have hs : src[i]? = some (src.get ⟨i, hi⟩) := by simp
    rw [List.getElem?_map, hs]
    rfl
  rw [hg]
  rfl

theorem pass_accepted_sublist (fm : FuzzyMatch) (pattern : String) (src : SourceModel) :
    (QuickOpenFilterProxyModel.pass fm pattern src).accepted.Sublist
      (List.range src.length) := by
  cases he : pattern.isEmpty with
  | true =>
    rw [(pass_of_isEmpty fm pattern he src).2]
  | false =>
    rw [pass_accepted_of_not_isEmpty fm pattern he]
    exact List.filter_sublist _

theorem pass_rows_lt (fm : FuzzyMatch) (pattern : String) (src : SourceModel) (i : Nat)
    (hi : i ∈ (QuickOpenFilterProxyModel.pass fm pattern src).rows) : i < src.length :=
  List.mem_range.mp
    ((pass_accepted_sublist fm pattern src).subset ((pass_rows_perm fm pattern src).subset hi))

/-! ## The claims on `filterAcceptsRow` -/

/-- C1: for every non-empty pattern and every source row, `filterAcceptsRow`
of `QuickOpenFilterProxyModel` and of `BranchFilterModel` returns exactly the
boolean `kfts::fuzzy_match` returns for the pattern and the display string of
the row in column 0; the rows a full pass presents are, up to their order,
exactly the source rows the matcher reports as matched, and there are none when
no row matches. -/
theorem filterAcceptsRow_returns_fuzzy_match (fm : FuzzyMatch) (pattern : String)
    (src : SourceModel) (h : pattern ≠ "") :
    (∀ row : Int,
      (QuickOpenFilterProxyModel.filterAcceptsRow fm pattern src row).1
        = (fm pattern (displayData src (index src row)) 0).1 ∧
      (BranchFilterModel.filterAcceptsRow fm pattern src row).1
        = (fm pattern (displayData src (index src row)) 0).1) ∧
    (QuickOpenFilterProxyModel.pass fm pattern src).rows.Perm
      ((List.range src.length).filter
        (fun r => (fm pattern (displayData src (some r)) 0).1)) ∧
    (BranchFilterModel.pass fm pattern src).rows.Perm
      ((List.range src.length).filter
        (fun r => (fm pattern (displayData src (some r)) 0).1)) ∧
    ((∀ r, r < src.length → (fm pattern (displayData src (some r)) 0).1 = false) →
      (QuickOpenFilterProxyModel.pass fm pattern src).rows = [] ∧
      (BranchFilterModel.pass fm pattern src).rows = []) := by
  have he := isEmpty_eq_false_of_ne pattern h
  have hperm : (QuickOpenFilterProxyModel.pass fm pattern src).rows.Perm
      ((List.range src.length).filter
        (fun r => (fm pattern (displayData src (some r)) 0).1)) := by
    have := pass_rows_perm fm pattern src
    rwa [pass_accepted_of_not_isEmpty fm pattern he] at this
  refine ⟨?_, hperm, ?_, ?_⟩
  · intro row
    rw [BranchFilterModel.filterAcceptsRow_eq, filterAcceptsRow_of_not_isEmpty fm pattern src row he]
    exact ⟨rfl, rfl⟩
  · rw [BranchFilterModel.pass_eq]
    exact hperm
  · intro hno
    have hnil : (List.range src.length).filter
        (fun r => (fm pattern (displayData src (some r)) 0).1) = [] := by
      rw [List.filter_eq_nil_iff]
      intro r hr
      rw [hno r (List.mem_range.mp hr)]
      simp
    rw [hnil] at hperm
    rw [BranchFilterModel.pass_eq]
    exact ⟨List.Perm.eq_nil hperm, List.Perm.eq_nil hperm⟩

/-- Witness of C1: the pattern `mc` on the three sample files. -/
theorem filterAcceptsRow_returns_fuzzy_match_witness :
    ("mc" : String) ≠ "" ∧
    (QuickOpenFilterProxyModel.pass (kfts.fuzzy_match sampleScore) "mc" sampleFiles).rows.Perm
      ((List.range sampleFiles.length).filter
        (fun r => (kfts.fuzzy_match sampleScore "mc" (displayData sampleFiles (some r)) 0).1)) :=
  ⟨by decide,
    (filterAcceptsRow_returns_fuzzy_match (kfts.fuzzy_match sampleScore) "mc" sampleFiles
      (by decide)).2.1⟩

/-- C2: with the empty pattern, `filterAcceptsRow` of both proxies returns
`true` for every source row and every display string, so a full pass presents
every row of the source model. -/
theorem filterAcceptsRow_empty_pattern (fm : FuzzyMatch) (pattern : String)
    (src : SourceModel) :
    (∀ row : Int,
      (QuickOpenFilterProxyModel.filterAcceptsRow fm
        (QuickOpenFilterProxyModel.setFilterText pattern "") src row).1 = true ∧
      (BranchFilterModel.filterAcceptsRow fm
        (BranchFilterModel.setFilterString pattern "") src row).1 = true) ∧
    (QuickOpenFilterProxyModel.pass fm "" src).rows.Perm (List.range src.length) ∧
    (BranchFilterModel.pass fm "" src).rows.Perm (List.range src.length) := by
  have hperm : (QuickOpenFilterProxyModel.pass fm "" src).rows.Perm (List.range src.length) := by
    have := pass_rows_perm fm "" src
    rwa [(pass_of_isEmpty fm "" rfl src).2] at this
  refine ⟨fun row => ⟨rfl, rfl⟩, hperm, ?_⟩
  rw [BranchFilterModel.pass_eq]
  exact hperm

/-! ## The claims on the presented order -/

/-- C3: for every pattern and every source model, the rows a full pass
presents are sorted by their stored score in descending order (no row stands
before a row with a strictly higher stored score), and this is the order of
`lessThan`: no presented row is `lessThan` a row presented after it. For a
non-empty pattern the stored scores are the match scores, so the presented
rows are sorted by match score in descending order. -/
theorem presented_rows_sorted_by_score_descending (fm : FuzzyMatch) (pattern : String)
    (src : SourceModel) :
    (QuickOpenFilterProxyModel.pass fm pattern src).scores.Pairwise (fun a b => b ≤ a) ∧
    (QuickOpenFilterProxyModel.pass fm pattern src).rows.Pairwise
      (fun a b => QuickOpenFilterProxyModel.lessThan
        (QuickOpenFilterProxyModel.pass fm pattern src).model (some a) (some b) = false) ∧
    (BranchFilterModel.pass fm pattern src).scores.Pairwise (fun a b => b ≤ a) ∧
    (BranchFilterModel.pass fm pattern src).rows.Pairwise
      (fun a b => BranchFilterModel.lessThan
        (BranchFilterModel.pass fm pattern src).model (some a) (some b) = false) ∧
    (pattern ≠ "" →
      ((QuickOpenFilterProxyModel.pass fm pattern src).rows.map
        (fun i => (fm pattern (displayData src (some i)) 0).2)).Pairwise (fun a b => b ≤ a) ∧
      ((BranchFilterModel.pass fm pattern src).rows.map
        (fun i => (fm pattern (displayData src (some i)) 0).2)).Pairwise (fun a b => b ≤ a)) := by
  have h3 : pattern ≠ "" →
      ((QuickOpenFilterProxyModel.pass fm pattern src).rows.map
        (fun i => (fm pattern (displayData src (some i)) 0).2)).Pairwise
          (fun a b => b ≤ a) := by
    intro hne
    have he := isEmpty_eq_false_of_ne pattern hne
    rw [List.pairwise_map]
    have hd := pass_rows_descending fm pattern src
    rw [List.pairwise_iff_forall_sublist] at hd
    rw [List.pairwise_iff_forall_sublist]
    intro a b hab
    have ha : a < src.length := pass_rows_lt fm pattern src a (hab.subset (by simp))
    have hb : b < src.length := pass_rows_lt fm pattern src b (hab.subset (by simp))
    have := hd hab
    rwa [pass_scoreData_of_not_isEmpty fm pattern he src a ha,
      pass_scoreData_of_not_isEmpty fm pattern he src b hb] at this
  have h1 : (QuickOpenFilterProxyModel.pass fm pattern src).scores.Pairwise
      (fun a b => b ≤ a) := by
    unfold Pass.scores
    rw [List.pairwise_map]
    exact pass_rows_descending fm pattern src
  have h2 : (QuickOpenFilterProxyModel.pass fm pattern src).rows.Pairwise
      (fun a b => QuickOpenFilterProxyModel.lessThan
        (QuickOpenFilterProxyModel.pass fm pattern src).model (some a) (some b) = false) := by
    refine List.Pairwise.imp ?_ (pass_rows_descending fm pattern src)
    intro a b hab
    rw [lessThan_eq_decide]
    simpa using hab
  rw [BranchFilterModel.pass_eq, BranchFilterModel.lessThan_eq]
  exact ⟨h1, h2, h1, h2, fun hne => ⟨h3 hne, h3 hne⟩⟩

/-- Witness of C3: the sample files under the pattern `m`, presented by
descending match score. -/
theorem presented_rows_sorted_by_score_descending_witness :
    ((QuickOpenFilterProxyModel.pass (kfts.fuzzy_match sampleScore) "m" sampleFiles).rows.map
      (fun i => (kfts.fuzzy_match sampleScore "m"
        (displayData sampleFiles (some i)) 0).2)).Pairwise (fun a b => b ≤ a) :=
  ((presented_rows_sorted_by_score_descending (kfts.fuzzy_match sampleScore) "m"
    sampleFiles).2.2.2.2 (by decide)).1

/-- C4: `lessThan` is false in both directions for two rows with equal stored
scores, in both proxies; hence when all accepted rows hold the same stored
score a full pass presents them in source order (the accepted rows as the
filter collected them, which is increasing row order). -/
theorem equal_scores_keep_source_order (fm : FuzzyMatch) (pattern : String)
    (src : SourceModel)
    (h : ∀ i ∈ (QuickOpenFilterProxyModel.pass fm pattern src).accepted,
      ∀ j ∈ (QuickOpenFilterProxyModel.pass fm pattern src).accepted,
        scoreData (QuickOpenFilterProxyModel.pass fm pattern src).model (some i)
          = scoreData (QuickOpenFilterProxyModel.pass fm pattern src).model (some j)) :
    (∀ (m : SourceModel) (l r : QModelIndex), scoreData m l = scoreData m r →
      QuickOpenFilterProxyModel.lessThan m l r = false ∧
      QuickOpenFilterProxyModel.lessThan m r l = false ∧
      BranchFilterModel.lessThan m l r = false ∧
      BranchFilterModel.lessThan m r l = false) ∧
    (QuickOpenFilterProxyModel.pass fm pattern src).rows
      = (QuickOpenFilterProxyModel.pass fm pattern src).accepted ∧
    (BranchFilterModel.pass fm pattern src).rows
      = (BranchFilterModel.pass fm pattern src).accepted ∧
    (QuickOpenFilterProxyModel.pass fm pattern src).accepted.Pairwise (fun a b => a < b) := by
  have hsub := pass_accepted_sublist fm pattern src
  have hrows : (QuickOpenFilterProxyModel.pass fm pattern src).rows
      = (QuickOpenFilterProxyModel.pass fm pattern src).accepted := by
    rw [pass_rows_eq]
    apply stableSort_eq_self
    rw [List.pairwise_iff_forall_sublist]
    intro a b hab
    have ha : a ∈ (QuickOpenFilterProxyModel.pass fm pattern src).accepted :=
      hab.subset (by simp)
    have hb : b ∈ (QuickOpenFilterProxyModel.pass fm pattern src).accepted :=
      hab.subset (by simp)
    rw [lessThan_eq_decide, h a ha b hb]
    simp
  refine ⟨?_, hrows, ?_, ?_⟩
  · intro m l r e
    rw [BranchFilterModel.lessThan_eq]
    simp only [lessThan_eq_decide, e]
    simp
  · rw [BranchFilterModel.pass_eq]
    exact hrows
  · exact List.Pairwise.sublist hsub (List.pairwise_lt_range _)

/-- Witness of C4: three branches `A`, `B`, `C` that all match the pattern `x`
with the same score are presented as `A`, `B`, `C`. -/
theorem equal_scores_keep_source_order_witness :
    (QuickOpenFilterProxyModel.pass (kfts.fuzzy_match (fun _ _ => 7)) "x"
      [⟨"xA", 0, ""⟩, ⟨"xB", 3, ""⟩, ⟨"xC", 1, ""⟩]).labels = ["xA", "xB", "xC"] := by
  have e := (equal_scores_keep_source_order (kfts.fuzzy_match (fun _ _ => 7)) "x"
      [⟨"xA", 0, ""⟩, ⟨"xB", 3, ""⟩, ⟨"xC", 1, ""⟩] (by decide)).2.1
  unfold Pass.labels
  rw [e]
  decide

/-! ## The empty query after earlier queries -/

theorem pass_model_twoLabels (fm : FuzzyMatch) :
    (QuickOpenFilterProxyModel.pass fm "ab" twoLabels).model
      = [⟨"axxb", (fm "ab" "axxb" 0).2, ""⟩, ⟨"ab", (fm "ab" "ab" 0).2, ""⟩] := by
  rw [pass_model_of_not_isEmpty fm "ab" rfl]
  rfl

theorem pass_empty_two_rows (fm : FuzzyMatch) (a b : Item) :
    (QuickOpenFilterProxyModel.pass fm "" [a, b]).rows
      = if a.score < b.score then [1, 0] else [0, 1] := by
  have hm := (pass_of_isEmpty fm "" rfl [a, b]).1
  have ha := (pass_of_isEmpty fm "" rfl [a, b]).2
  rw [pass_rows_eq, hm, ha]
  have hr : List.range [a, b].length = [0, 1] := rfl
  rw [hr]
  by_cases h : a.score < b.score
  · simp [stableSort, insertStable, lessThan_eq_decide, scoreData, h]
  · simp [stableSort, insertStable, lessThan_eq_decide, scoreData, h]

/-- Counterexample to C5 as stated: candidates `axxb`, `ab` in a freshly
filled model, the query `ab` and then the empty query. Whatever matcher scores
`ab` higher on `ab` than on `axxb`, the pass for the empty query does not
present the original order with all scores `0`: the scores of the query `ab`
are still stored and put `ab` first. -/
theorem empty_query_after_query_counterexample :
    ¬ ∃ fm : FuzzyMatch, (fm "ab" "axxb" 0).2 < (fm "ab" "ab" 0).2 ∧
      (QuickOpenFilterProxyModel.pass fm (QuickOpenFilterProxyModel.setFilterText "ab" "")
        (QuickOpenFilterProxyModel.pass fm "ab" twoLabels).model).labels = ["axxb", "ab"] ∧
      (QuickOpenFilterProxyModel.pass fm (QuickOpenFilterProxyModel.setFilterText "ab" "")
        (QuickOpenFilterProxyModel.pass fm "ab" twoLabels).model).scores = [0, 0] := by
  rintro ⟨fm, hlt, hlabels, -⟩
  have hm := (pass_of_isEmpty fm "" rfl (QuickOpenFilterProxyModel.pass fm "ab" twoLabels).model).1
  have hrows : (QuickOpenFilterProxyModel.pass fm ""
      (QuickOpenFilterProxyModel.pass fm "ab" twoLabels).model).rows = [1, 0] := by
    rw [pass_model_twoLabels, pass_empty_two_rows, if_pos hlt]
  have e : (QuickOpenFilterProxyModel.pass fm ""
      (QuickOpenFilterProxyModel.pass fm "ab" twoLabels).model).labels = ["ab", "axxb"] := by
    unfold Pass.labels
    rw [hrows, hm, pass_model_twoLabels]
    rfl
  have hl : (QuickOpenFilterProxyModel.pass fm ""
      (QuickOpenFilterProxyModel.pass fm "ab" twoLabels).model).labels = ["axxb", "ab"] :=
    hlabels
  rw [e] at hl
  exact absurd hl (by decide)

/-- C5, amended: after `setFilterText("")` resp. `setFilterString("")` a full
pass accepts every row and leaves the source model, and so every stored score,
as it was; the rows are presented in the stable descending order of the scores
already stored, which is the original order whenever those scores are all equal
(as in a freshly filled model, where every score is and stays `0`). -/
theorem empty_query_keeps_stored_scores (fm : FuzzyMatch) (old : String)
    (src : SourceModel) :
    (QuickOpenFilterProxyModel.pass fm
      (QuickOpenFilterProxyModel.setFilterText old "") src).model = src ∧
    (BranchFilterModel.pass fm (BranchFilterModel.setFilterString old "") src).model = src ∧
    (QuickOpenFilterProxyModel.pass fm
      (QuickOpenFilterProxyModel.setFilterText old "") src).rows
      = stableSort (fun a b => decide (scoreData src (some b) < scoreData src (some a)))
          (List.range src.length) ∧
    (BranchFilterModel.pass fm (BranchFilterModel.setFilterString old "") src).rows
      = stableSort (fun a b => decide (scoreData src (some b) < scoreData src (some a)))
          (List.range src.length) ∧
    ((∀ a ∈ src, ∀ b ∈ src, a.score = b.score) →
      (QuickOpenFilterProxyModel.pass fm
        (QuickOpenFilterProxyModel.setFilterText old "") src).rows = List.range src.length ∧
      (BranchFilterModel.pass fm
        (BranchFilterModel.setFilterString old "") src).rows = List.range src.length) := by
  have hm := (pass_of_isEmpty fm "" rfl src).1
  have ha := (pass_of_isEmpty fm "" rfl src).2
  have hrows : (QuickOpenFilterProxyModel.pass fm "" src).rows
      = stableSort (fun a b => decide (scoreData src (some b) < scoreData src (some a)))
          (List.range src.length) := by
    rw [pass_rows_eq, hm, ha]
    rfl
  rw [BranchFilterModel.pass_eq]
  refine ⟨hm, hm, hrows, hrows, ?_⟩
  intro heq
  have hid : (QuickOpenFilterProxyModel.pass fm "" src).rows = List.range src.length := by
    rw [hrows]
    apply stableSort_eq_self
    rw [List.pairwise_iff_forall_sublist]
    intro i j hij
    have hi : i < src.length := List.mem_range.mp (hij.subset (by simp))
    have hj : j < src.length := List.mem_range.mp (hij.subset (by simp))
    have e : scoreData src (some i) = scoreData src (some j) := by
      have gi : src[i]? = some (src.get ⟨i, hi⟩) := by simp
      have gj : src[j]? = some (src.get ⟨j, hj⟩) := by simp
      simp only [scoreData, gi, gj]
      exact heq _ (List.get_mem src i hi) _ (List.get_mem src j hj)
    rw [e]
    simp
  exact ⟨hid, hid⟩

/-- Witness of C5, amended: the freshly filled sample model under the empty
query keeps its rows in source order. -/
theorem empty_query_keeps_stored_scores_witness :
    (QuickOpenFilterProxyModel.pass (kfts.fuzzy_match sampleScore)
      (QuickOpenFilterProxyModel.setFilterText "mc" "") sampleFiles).rows = [0, 1, 2] :=
  ((empty_query_keeps_stored_scores (kfts.fuzzy_match sampleScore) "mc" sampleFiles).2.2.2.2
    (by decide)).1

/-! ## What a call of `filterAcceptsRow` writes -/

/-- Counterexample to C6 as stated: a one-row model with display string `a`,
once with stored score `0` and once with stored score `1`, and the pattern `a`.
No matcher leaves both models unchanged: the call writes the same new score
into the score role of the row in both. -/
theorem filterAcceptsRow_writes_score_counterexample :
    ¬ ∃ fm : FuzzyMatch,
      (QuickOpenFilterProxyModel.filterAcceptsRow fm "a" [⟨"a", 0, "/a"⟩] 0).2
        = [⟨"a", 0, "/a"⟩] ∧
      (QuickOpenFilterProxyModel.filterAcceptsRow fm "a" [⟨"a", 1, "/a"⟩] 0).2
        = [⟨"a", 1, "/a"⟩] := by
  rintro ⟨fm, h0, h1⟩
  have e0 : (QuickOpenFilterProxyModel.filterAcceptsRow fm "a" [⟨"a", 0, "/a"⟩] 0).2
      = [⟨"a", (fm "a" "a" 0).2, "/a"⟩] := by
    rw [filterAcceptsRow_of_not_isEmpty fm "a" _ 0 rfl]
    rfl
  have e1 : (QuickOpenFilterProxyModel.filterAcceptsRow fm "a" [⟨"a", 1, "/a"⟩] 0).2
      = [⟨"a", (fm "a" "a" 0).2, "/a"⟩] := by
    rw [filterAcceptsRow_of_not_isEmpty fm "a" _ 0 rfl]
    rfl
  rw [e0] at h0
  rw [e1] at h1
  have s0 : (fm "a" "a" 0).2 = 0 := by
    have := congrArg (fun l : SourceModel => l.map Item.score) h0
    simpa using this
  have s1 : (fm "a" "a" 0).2 = 1 := by
    have := congrArg (fun l : SourceModel => l.map Item.score) h1
    simpa using this
  omega

/-- C6, amended: a call of `filterAcceptsRow` (both proxies) changes nothing in
the source model but the score role of the row it is asked about: the number of
rows, every display string and all remaining data of every row stay as they
were, every other row stays as it was in all its roles, and with the empty
pattern the whole source model stays as it was. -/
theorem filterAcceptsRow_frame (fm : FuzzyMatch) (pattern : String) (src : SourceModel)
    (row : Int) :
    ((QuickOpenFilterProxyModel.filterAcceptsRow fm pattern src row).2.map Item.display
        = src.map Item.display ∧
      (QuickOpenFilterProxyModel.filterAcceptsRow fm pattern src row).2.map Item.payload
        = src.map Item.payload ∧
      (∀ j : Nat, (j : Int) ≠ row →
        (QuickOpenFilterProxyModel.filterAcceptsRow fm pattern src row).2[j]? = src[j]?) ∧
      (QuickOpenFilterProxyModel.filterAcceptsRow fm "" src row).2 = src) ∧
    ((BranchFilterModel.filterAcceptsRow fm pattern src row).2.map Item.display
        = src.map Item.display ∧
      (BranchFilterModel.filterAcceptsRow fm pattern src row).2.map Item.payload
        = src.map Item.payload ∧
      (∀ j : Nat, (j : Int) ≠ row →
        (BranchFilterModel.filterAcceptsRow fm pattern src row).2[j]? = src[j]?) ∧
      (BranchFilterModel.filterAcceptsRow fm "" src row).2 = src) := by
  have key : (QuickOpenFilterProxyModel.filterAcceptsRow fm pattern src row).2.map Item.display
        = src.map Item.display ∧
      (QuickOpenFilterProxyModel.filterAcceptsRow fm pattern src row).2.map Item.payload
        = src.map Item.payload ∧
      (∀ j : Nat, (j : Int) ≠ row →
        (QuickOpenFilterProxyModel.filterAcceptsRow fm pattern src row).2[j]? = src[j]?) ∧
      (QuickOpenFilterProxyModel.filterAcceptsRow fm "" src row).2 = src := by
    cases he : pattern.isEmpty with
    | true =>
      rw [filterAcceptsRow_of_isEmpty fm pattern src row he]
      exact ⟨rfl, rfl, fun _ _ => rfl, rfl⟩
    | false =>
      rw [filterAcceptsRow_of_not_isEmpty fm pattern src row he]
      refine ⟨?_, ?_, ?_, rfl⟩
      · apply List.ext_getElem?
        intro j
        simp only [List.getElem?_map, getElem?_setData]
        split
        · cases src[j]? <;> rfl
        · rfl
      · apply List.ext_getElem?
        intro j
        simp only [List.getElem?_map, getElem?_setData]
        split
        · cases src[j]? <;> rfl
        · rfl
      · intro j hj
        simp only [getElem?_setData]
        split
        · rename_i hidx
          have := (index_lt src row j hidx).2
          exact absurd this.symm hj
        · rfl
  rw [BranchFilterModel.filterAcceptsRow_eq]
  exact ⟨key, key⟩

/-! ## Two passes with the same query -/

/-- Counterexample to C7 as stated: the labels `axxb`, `ab`, once freshly
filled and once after the query `ab`. Whatever matcher scores `ab` higher on
`ab` than on `axxb`, the two passes with the empty query over these same labels
do not present the rows in the same order. -/
theorem same_query_same_result_counterexample :
    ¬ ∃ fm : FuzzyMatch, (fm "ab" "axxb" 0).2 < (fm "ab" "ab" 0).2 ∧
      (QuickOpenFilterProxyModel.pass fm "" twoLabels).rows
        = (QuickOpenFilterProxyModel.pass fm ""
            (QuickOpenFilterProxyModel.pass fm "ab" twoLabels).model).rows := by
  rintro ⟨fm, hlt, h⟩
  have e1 : (QuickOpenFilterProxyModel.pass fm "" twoLabels).rows = [0, 1] := by
    unfold twoLabels
    rw [pass_empty_two_rows]
    rfl
  have e2 : (QuickOpenFilterProxyModel.pass fm ""
      (QuickOpenFilterProxyModel.pass fm "ab" twoLabels).model).rows = [1, 0] := by
    rw [pass_model_twoLabels, pass_empty_two_rows, if_pos hlt]
  rw [e1, e2] at h
  exact absurd h (by decide)

/-- C7, amended: for every non-empty query, two full passes with that query
over source models with the same display strings give the same accepted rows,
the same stored scores and the same presented order, whatever scores were
stored before (both proxies). With the empty query the stored scores are not
recomputed. -/
theorem same_query_same_result (fm : FuzzyMatch) (pattern : String)
    (src1 src2 : SourceModel) (h : pattern ≠ "")
    (hl : src1.map Item.display = src2.map Item.display) :
    ((QuickOpenFilterProxyModel.pass fm pattern src1).accepted
        = (QuickOpenFilterProxyModel.pass fm pattern src2).accepted ∧
      (QuickOpenFilterProxyModel.pass fm pattern src1).model.map Item.score
        = (QuickOpenFilterProxyModel.pass fm pattern src2).model.map Item.score ∧
      (QuickOpenFilterProxyModel.pass fm pattern src1).rows
        = (QuickOpenFilterProxyModel.pass fm pattern src2).rows ∧
      (QuickOpenFilterProxyModel.pass fm pattern src1).scores
        = (QuickOpenFilterProxyModel.pass fm pattern src2).scores) ∧
    ((BranchFilterModel.pass fm pattern src1).accepted
        = (BranchFilterModel.pass fm pattern src2).accepted ∧
      (BranchFilterModel.pass fm pattern src1).model.map Item.score
        = (BranchFilterModel.pass fm pattern src2).model.map Item.score ∧
      (BranchFilterModel.pass fm pattern src1).rows
        = (BranchFilterModel.pass fm pattern src2).rows ∧
      (BranchFilterModel.pass fm pattern src1).scores
        = (BranchFilterModel.pass fm pattern src2).scores) := by
  have he := isEmpty_eq_false_of_ne pattern h
  have hlen : src1.length = src2.length := by
    have := congrArg List.length hl
    simpa using this
  have hacc : (QuickOpenFilterProxyModel.pass fm pattern src1).accepted
      = (QuickOpenFilterProxyModel.pass fm pattern src2).accepted := by
    rw [pass_accepted_of_not_isEmpty fm pattern he, pass_accepted_of_not_isEmpty fm pattern he,
      hlen]
    congr 1
    funext r
    rw [displayData_eq_map, displayData_eq_map, hl]
  have hsc : ∀ i, scoreData (QuickOpenFilterProxyModel.pass fm pattern src1).model (some i)
      = scoreData (QuickOpenFilterProxyModel.pass fm pattern src2).model (some i) := by
    intro i
    rw [pass_model_of_not_isEmpty fm pattern he, pass_model_of_not_isEmpty fm pattern he,
      scoreData_rescore, scoreData_rescore, hl]
  have hmod : (QuickOpenFilterProxyModel.pass fm pattern src1).model.map Item.score
      = (QuickOpenFilterProxyModel.pass fm pattern src2).model.map Item.score := by
    rw [pass_model_of_not_isEmpty fm pattern he, pass_model_of_not_isEmpty fm pattern he]
    have e : ∀ src : SourceModel, (src.map (rescore fm pattern)).map Item.score
        = (src.map Item.display).map (fun d => (fm pattern d 0).2) := by
      intro src
      simp [rescore, Function.comp_def]
    rw [e, e, hl]
  have hrows : (QuickOpenFilterProxyModel.pass fm pattern src1).rows
      = (QuickOpenFilterProxyModel.pass fm pattern src2).rows := by
    rw [pass_rows_eq, pass_rows_eq, hacc]
    congr 1
    funext a b
    rw [lessThan_eq_decide, lessThan_eq_decide, hsc a, hsc b]
  have hscores : (QuickOpenFilterProxyModel.pass fm pattern src1).scores
      = (QuickOpenFilterProxyModel.pass fm pattern src2).scores := by
    unfold Pass.scores
    rw [hrows]
    apply List.map_congr_left
    intro i _
    exact hsc i
  rw [BranchFilterModel.pass_eq]
  exact ⟨⟨hacc, hmod, hrows, hscores⟩, ⟨hacc, hmod, hrows, hscores⟩⟩

/-- Witness of C7, amended: the sample files, once freshly filled and once with
scores left by an earlier query, under the query `mc`. -/
theorem same_query_same_result_witness :
    (QuickOpenFilterProxyModel.pass (kfts.fuzzy_match sampleScore) "mc" sampleFiles).rows
      = (QuickOpenFilterProxyModel.pass (kfts.fuzzy_match sampleScore) "mc"
          [⟨"main.cpp", 5, "/src/main.cpp"⟩, ⟨"Main.hpp", 90, "/src/Main.hpp"⟩,
            ⟨"README.md", 41, "/README.md"⟩]).rows :=
  (same_query_same_result (kfts.fuzzy_match sampleScore) "mc" sampleFiles
    [⟨"main.cpp", 5, "/src/main.cpp"⟩, ⟨"Main.hpp", 90, "/src/Main.hpp"⟩,
      ⟨"README.md", 41, "/README.md"⟩] (by decide) (by decide)).1.2.2.1

/-! ## The stored score -/

/-- C8: for every non-empty pattern and every row of the source model, after
`filterAcceptsRow` the stored score of the row equals the score
`kfts::fuzzy_match` computed for the pattern and the display string of that
row, and `lessThan` compares exactly this value (both proxies); after a full
pass this holds for every row at once. -/
theorem filterAcceptsRow_stores_score (fm : FuzzyMatch) (pattern : String)
    (src : SourceModel) (row : Int) (h : pattern ≠ "") (h0 : 0 ≤ row)
    (h1 : row < (src.length : Int)) :
    (scoreData (QuickOpenFilterProxyModel.filterAcceptsRow fm pattern src row).2
        (index src row) = (fm pattern (displayData src (index src row)) 0).2 ∧
      (∀ other : QModelIndex,
        QuickOpenFilterProxyModel.lessThan
            (QuickOpenFilterProxyModel.filterAcceptsRow fm pattern src row).2
            (index src row) other
          = decide ((fm pattern (displayData src (index src row)) 0).2
              < scoreData (QuickOpenFilterProxyModel.filterAcceptsRow fm pattern src row).2
                  other) ∧
        QuickOpenFilterProxyModel.lessThan
            (QuickOpenFilterProxyModel.filterAcceptsRow fm pattern src row).2
            other (index src row)
          = decide (scoreData (QuickOpenFilterProxyModel.filterAcceptsRow fm pattern src row).2
                other
              < (fm pattern (displayData src (index src row)) 0).2))) ∧
    (scoreData (BranchFilterModel.filterAcceptsRow fm pattern src row).2
        (index src row) = (fm pattern (displayData src (index src row)) 0).2 ∧
      (∀ other : QModelIndex,
        BranchFilterModel.lessThan
            (BranchFilterModel.filterAcceptsRow fm pattern src row).2
            (index src row) other
          = decide ((fm pattern (displayData src (index src row)) 0).2
              < scoreData (BranchFilterModel.filterAcceptsRow fm pattern src row).2
                  other) ∧
        BranchFilterModel.lessThan
            (BranchFilterModel.filterAcceptsRow fm pattern src row).2
            other (index src row)
          = decide (scoreData (BranchFilterModel.filterAcceptsRow fm pattern src row).2
                other
              < (fm pattern (displayData src (index src row)) 0).2))) ∧
    (∀ i : Nat, i < src.length →
      scoreData (QuickOpenFilterProxyModel.pass fm pattern src).model (some i)
        = (fm pattern (displayData src (some i)) 0).2 ∧
      scoreData (BranchFilterModel.pass fm pattern src).model (some i)
        = (fm pattern (displayData src (some i)) 0).2) := by
  have he := isEmpty_eq_false_of_ne pattern h
  have hstore : scoreData (QuickOpenFilterProxyModel.filterAcceptsRow fm pattern src row).2
      (index src row) = (fm pattern (displayData src (index src row)) 0).2 := by
    rw [filterAcceptsRow_of_not_isEmpty fm pattern src row he]
    have hidx : index src row = some row.toNat := by
      unfold index
      rw [if_pos ⟨h0, h1⟩]
    have hlt : row.toNat < src.length := by omega
    have hg : src[row.toNat]? = some (src.get ⟨row.toNat, hlt⟩) := by simp
    rw [hidx]
    simp only [scoreData, getElem?_setData, if_true, hg, Option.map_some']
  have hless : ∀ other : QModelIndex,
      QuickOpenFilterProxyModel.lessThan
          (QuickOpenFilterProxyModel.filterAcceptsRow fm pattern src row).2
          (index src row) other
        = decide ((fm pattern (displayData src (index src row)) 0).2
            < scoreData (QuickOpenFilterProxyModel.filterAcceptsRow fm pattern src row).2
                other) ∧
      QuickOpenFilterProxyModel.lessThan
          (QuickOpenFilterProxyModel.filterAcceptsRow fm pattern src row).2
          other (index src row)
        = decide (scoreData (QuickOpenFilterProxyModel.filterAcceptsRow fm pattern src row).2
              other
            < (fm pattern (displayData src (index src row)) 0).2) := by
    intro other
    rw [lessThan_eq_decide, lessThan_eq_decide, hstore]
    exact ⟨rfl, rfl⟩
  have hpass : ∀ i : Nat, i < src.length →
      scoreData (QuickOpenFilterProxyModel.pass fm pattern src).model (some i)
        = (fm pattern (displayData src (some i)) 0).2 := by
    intro i hi
    exact pass_scoreData_of_not_isEmpty fm pattern he src i hi
  rw [BranchFilterModel.filterAcceptsRow_eq, BranchFilterModel.lessThan_eq,
    BranchFilterModel.pass_eq]
  exact ⟨⟨hstore, hless⟩, ⟨hstore, hless⟩, fun i hi => ⟨hpass i hi, hpass i hi⟩⟩

/-- Witness of C8: the pattern `mc` on row 0 of the sample files. -/
theorem filterAcceptsRow_stores_score_witness :
    scoreData
        (QuickOpenFilterProxyModel.filterAcceptsRow (kfts.fuzzy_match sampleScore) "mc"
          sampleFiles 0).2 (index sampleFiles 0)
      = (kfts.fuzzy_match sampleScore "mc" (displayData sampleFiles (index sampleFiles 0)) 0).2 :=
  (filterAcceptsRow_stores_score (kfts.fuzzy_match sampleScore) "mc" sampleFiles 0
    (by decide) (by decide) (by decide)).1.1

/-! ## The matched flag -/

theorem scan_iff_sublist (q t : List Char) :
    kfts.scan q t = true ↔ (q.map kfts.caseFold).Sublist (t.map kfts.caseFold) := by
  induction t generalizing q with
  | nil =>
    cases q with
    | nil => simp [kfts.scan]
    | cons a qs => simp [kfts.scan]
  | cons c ts ih =>
    cases q with
    | nil => simp [kfts.scan]
    | cons a qs =>
      unfold kfts.scan
      by_cases e : kfts.caseFold a = kfts.caseFold c
      · rw [if_pos e, ih qs]
        simp only [List.map_cons, e]
        exact List.cons_sublist_cons.symm
      · rw [if_neg e, ih (a :: qs)]
        simp only [List.map_cons]
        rw [List.sublist_cons_iff (a := kfts.caseFold c)]
        constructor
        · intro hs
          exact Or.inl hs
        · rintro (hs | ⟨r, hr, -⟩)
          · exact hs
          · have := (List.cons.inj hr).1
            exact absurd this e

/-- C9: the matcher reports `matched = true` exactly when the case-folded
query is a subsequence of the case-folded text; `ABC` matches `abcdef` and
`abc` matches `ABCDEF`; and for the candidates `main.cpp`, `Main.hpp`,
`README.md` with the query `mc` both proxies present exactly `main.cpp`,
whatever the scoring. -/
theorem matched_iff_subsequence :
    (∀ q t : String, kfts.matched q t = true ↔
      (q.data.map kfts.caseFold).Sublist (t.data.map kfts.caseFold)) ∧
    kfts.matched "ABC" "abcdef" = true ∧
    kfts.matched "abc" "ABCDEF" = true ∧
    (∀ score : String → String → Int,
      (QuickOpenFilterProxyModel.pass (kfts.fuzzy_match score) "mc" sampleFiles).labels
        = ["main.cpp"] ∧
      (BranchFilterModel.pass (kfts.fuzzy_match score) "mc" sampleFiles).labels
        = ["main.cpp"]) := by
  refine ⟨fun q t => scan_iff_sublist q.data t.data, by decide, by decide, ?_⟩
  intro score
  have hacc : (QuickOpenFilterProxyModel.pass (kfts.fuzzy_match score) "mc"
      sampleFiles).accepted = [0] := by
    rw [pass_accepted_of_not_isEmpty _ "mc" rfl]
    rfl
  have hrows : (QuickOpenFilterProxyModel.pass (kfts.fuzzy_match score) "mc"
      sampleFiles).rows = [0] := by
    rw [pass_rows_eq, hacc]
    rfl
  have hlab : (QuickOpenFilterProxyModel.pass (kfts.fuzzy_match score) "mc"
      sampleFiles).labels = ["main.cpp"] := by
    unfold Pass.labels
    rw [hrows, pass_model_of_not_isEmpty _ "mc" rfl]
    rfl
  rw [BranchFilterModel.pass_eq]
  exact ⟨hlab, hlab⟩

/-! ## The scoring weights

The specification describes the rewards of the scoring and leaves their sizes
open. On the three texts `ab`, `a_b`, `axxb` the alignment of the query `ab` is
unique, and the order of the three scores depends on the sizes. -/

theorem weightedScore_ab (w : kfts.Weights) :
    kfts.weightedScore w "ab" "ab" = w.boundary + w.consecutive := by
  have e : kfts.weightedScore w "ab" "ab" = (0 + w.boundary) + ((w.consecutive + 0) + 0) := rfl
  rw [e]
  omega

theorem weightedScore_a_b (w : kfts.Weights) :
    kfts.weightedScore w "ab" "a_b" = 2 * w.boundary - w.gap := by
  have e : kfts.weightedScore w "ab" "a_b"
      = (0 + w.boundary) + (- w.gap + ((0 + w.boundary) + 0)) := rfl
  rw [e]
  omega

theorem weightedScore_axxb (w : kfts.Weights) :
    kfts.weightedScore w "ab" "axxb" = w.boundary - 2 * w.gap := by
  have e : kfts.weightedScore w "ab" "axxb"
      = (0 + w.boundary) + (- w.gap + (- w.gap + ((0 + 0) + 0))) := rfl
  rw [e]
  omega

/-- The chain `ab > a_b > axxb` of scores for the query `ab` holds under the
weights `w` exactly when the boundary bonus is below the consecutive bonus plus
one gap penalty and above minus one gap penalty. -/
theorem weightedScore_chain_iff (w : kfts.Weights) :
    (kfts.weightedScore w "ab" "a_b" < kfts.weightedScore w "ab" "ab" ∧
      kfts.weightedScore w "ab" "axxb" < kfts.weightedScore w "ab" "a_b") ↔
    (w.boundary < w.consecutive + w.gap ∧ 0 < w.boundary + w.gap) := by
  rw [weightedScore_ab, weightedScore_a_b, weightedScore_axxb]
  constructor
  · rintro ⟨h1, h2⟩
    exact ⟨by omega, by omega⟩
  · rintro ⟨h1, h2⟩
    exact ⟨by omega, by omega⟩

/-! ## The external tools plugin -/

theorem findTool_eq_find? (cmd : String) (l : List KateExternalTool) :
    KateExternalToolsPlugin.findTool cmd l = l.find? (fun t => decide (t.cmdname = cmd)) := by
  induction l with
  | nil => rfl
  | cons t rest ih =>
    unfold KateExternalToolsPlugin.findTool
    by_cases h : t.cmdname = cmd
    · rw [if_pos h]
      simp [List.find?, h]
    · rw [if_neg h, ih]
      simp [List.find?, h]

theorem findTool_some (cmd : String) (l : List KateExternalTool) (t : KateExternalTool)
    (h : KateExternalToolsPlugin.findTool cmd l = some t) :
    t.cmdname = cmd ∧
      ∃ before after, l = before ++ t :: after ∧ ∀ u ∈ before, u.cmdname ≠ cmd := by
  induction l with
  | nil => exact absurd h (by simp [KateExternalToolsPlugin.findTool])
  | cons a rest ih =>
    unfold KateExternalToolsPlugin.findTool at h
    by_cases e : a.cmdname = cmd
    · rw [if_pos e] at h
      have ha : a = t := by simpa using h
      subst ha
      exact ⟨e, [], rest, rfl, by simp⟩
    · rw [if_neg e] at h
      obtain ⟨h1, before, after, h2, h3⟩ := ih h
      refine ⟨h1, a :: before, after, by rw [h2]; rfl, ?_⟩
      intro u hu
      rcases List.mem_cons.mp hu with hu | hu
      · rw [hu]; exact e
      · exact h3 u hu

theorem findTool_none (cmd : String) (l : List KateExternalTool) :
    KateExternalToolsPlugin.findTool cmd l = none ↔ ∀ t ∈ l, t.cmdname ≠ cmd := by
  induction l with
  | nil => simp [KateExternalToolsPlugin.findTool]
  | cons a rest ih =>
    unfold KateExternalToolsPlugin.findTool
    by_cases e : a.cmdname = cmd
    · rw [if_pos e]
      simp [e]
    · rw [if_neg e, ih]
      simp [e]

theorem findTool_of_mem (cmd : String) (l : List KateExternalTool) (t : KateExternalTool)
    (ht : t ∈ l) (hc : t.cmdname = cmd) :
    ∃ u, KateExternalToolsPlugin.findTool cmd l = some u ∧ u.cmdname = cmd := by
  cases h : KateExternalToolsPlugin.findTool cmd l with
  | none => exact absurd hc ((findTool_none cmd l).mp h t ht)
  | some u => exact ⟨u, rfl, (findTool_some cmd l u h).1⟩

/-- C15: for every string `cmd`, `toolForCommand(cmd)` returns the first tool
of `tools()` whose `cmdname` equals `cmd` (every tool before it in `tools()` has
another `cmdname`), and it returns `nullptr` if and only if no tool of `tools()`
has the `cmdname` `cmd`. -/
theorem toolForCommand_first_match (self : KateExternalToolsPlugin) (cmd : String) :
    self.toolForCommand cmd = self.tools.find? (fun t => decide (t.cmdname = cmd)) ∧
    (∀ t, self.toolForCommand cmd = some t →
      t.cmdname = cmd ∧
        ∃ before after, self.tools = before ++ t :: after ∧ ∀ u ∈ before, u.cmdname ≠ cmd) ∧
    (self.toolForCommand cmd = none ↔ ∀ t ∈ self.tools, t.cmdname ≠ cmd) :=
  ⟨findTool_eq_find? cmd self.m_tools, fun t h => findTool_some cmd self.m_tools t h,
    findTool_none cmd self.m_tools⟩

theorem reloadLoop_spec (load : String → KateExternalTool) (entries : List String)
    (self : KateExternalToolsPlugin) :
    (KateExternalToolsPlugin.reloadLoop load entries self).m_commands
      = self.m_commands ++
          (((entries.filter (fun it => decide (it ≠ "---"))).map load).filter
            (fun t => t.hasexec && ! t.cmdname.isEmpty)).map (fun t => t.cmdname) ∧
    (KateExternalToolsPlugin.reloadLoop load entries self).m_tools
      = self.m_tools ++ (entries.filter (fun it => decide (it ≠ "---"))).map load := by
  induction entries generalizing self with
  | nil => simp [KateExternalToolsPlugin.reloadLoop]
  | cons it rest ih =>
    unfold KateExternalToolsPlugin.reloadLoop
    by_cases h : it = "---"
    · rw [if_pos h]
      have := ih self
      simpa [h] using this
    · rw [if_neg h]
      by_cases hx : ((load it).hasexec && ! (load it).cmdname.isEmpty) = true
      · dsimp only
        rw [if_pos hx]
        refine ⟨?_, ?_⟩
        · rw [(ih _).1]
          simp [h, hx]
        · rw [(ih _).2]
          simp [h]
      · dsimp only
        rw [if_neg hx]
        refine ⟨?_, ?_⟩
        · rw [(ih _).1]
          simp [h, hx]
        · rw [(ih _).2]
          simp [h]

/-- C16: after `reload()`, `commands()` is exactly the list, in configuration
order, of the `cmdname` of each configured entry other than the separator `---`
whose tool has `hasexec` set and a non-empty `cmdname`; every entry of
`commands()` is non-empty, and `toolForCommand` of it returns a tool (not
`nullptr`) with that `cmdname`. -/
theorem reload_commands (self : KateExternalToolsPlugin) (config : ToolsConfig) :
    (self.reload config).commands
      = (((config.tools.filter (fun it => decide (it ≠ "---"))).map config.load).filter
          (fun t => t.hasexec && ! t.cmdname.isEmpty)).map (fun t => t.cmdname) ∧
    (∀ c ∈ (self.reload config).commands,
      c ≠ "" ∧ ∃ t, (self.reload config).toolForCommand c = some t ∧ t.cmdname = c) := by
  have hspec := reloadLoop_spec config.load config.tools
    { m_tools := self.m_tools, m_commands := [] }
  have hc : (self.reload config).commands
      = (((config.tools.filter (fun it => decide (it ≠ "---"))).map config.load).filter
          (fun t => t.hasexec && ! t.cmdname.isEmpty)).map (fun t => t.cmdname) := by
    have := hspec.1
    simpa using this
  refine ⟨hc, ?_⟩
  intro c hcmem
  rw [hc] at hcmem
  obtain ⟨t, ht, htc⟩ := List.mem_map.mp hcmem
  obtain ⟨htm, hp⟩ := List.mem_filter.mp ht
  have hne : t.cmdname.isEmpty = false := by
    cases e : t.cmdname.isEmpty with
    | false => rfl
    | true => simp [e] at hp
  constructor
  · intro hce
    rw [← htc] at hce
    rw [(String.isEmpty_iff _).mpr hce] at hne
    exact absurd hne (by simp)
  · have hmem : t ∈ (self.reload config).m_tools := by
      show t ∈ (KateExternalToolsPlugin.reloadLoop config.load config.tools
        { m_tools := self.m_tools, m_commands := [] }).m_tools
      rw [hspec.2]
      exact List.mem_append_right _ htm
    exact findTool_of_mem c _ t hmem htc

/-- Witness of C16: the sample configuration yields the one command
`git-cola`. -/
theorem reload_commands_witness :
    (KateExternalToolsPlugin.reload { m_tools := [], m_commands := ["stale"] }
      sampleConfig).commands = ["git-cola"] := by
  rw [(reload_commands { m_tools := [], m_commands := ["stale"] } sampleConfig).1]
  decide

/-! ## The project plugin: `projectForFileName` -/

theorem mapValue_of_mapContains (m : List (String × Nat)) (key : String)
    (h : KateProjectPlugin.mapContains m key = true) :
    ∃ p, KateProjectPlugin.mapValue m key = some p := by
  induction m with
  | nil => exact absurd h (by simp [KateProjectPlugin.mapContains])
  | cons e rest ih =>
    unfold KateProjectPlugin.mapValue
    by_cases he : e.1 = key
    · exact ⟨e.2, by simp [List.find?, he]⟩
    · have hr : KateProjectPlugin.mapContains rest key = true := by
        simpa [KateProjectPlugin.mapContains, he] using h
      obtain ⟨p, hp⟩ := ih hr
      refine ⟨p, ?_⟩
      unfold KateProjectPlugin.mapValue at hp
      simpa [List.find?, he] using hp

theorem mapValue_mapInsert (m : List (String × Nat)) (key : String) (p : Nat) :
    KateProjectPlugin.mapValue (KateProjectPlugin.mapInsert m key p) key = some p := by
  simp [KateProjectPlugin.mapValue, KateProjectPlugin.mapInsert, List.find?]

theorem mapContains_mapInsert (m : List (String × Nat)) (key other : String) (p : Nat) :
    KateProjectPlugin.mapContains (KateProjectPlugin.mapInsert m key p) other
      = (decide (key = other) || KateProjectPlugin.mapContains m other) := by
  rw [Bool.eq_iff_iff]
  simp only [KateProjectPlugin.mapContains, KateProjectPlugin.mapInsert, List.any_eq_true,
    List.mem_cons, List.mem_filter, Bool.or_eq_true, decide_eq_true_eq]
  constructor
  · rintro ⟨e, he | ⟨hm, -⟩, heq⟩
    · left
      rw [he] at heq
      exact heq
    · right
      exact ⟨e, hm, heq⟩
  · rintro (h | ⟨e, hm, heq⟩)
    · exact ⟨(key, p), Or.inl rfl, h⟩
    · by_cases hk : e.1 = key
      · exact ⟨(key, p), Or.inl rfl, hk.symm.trans heq⟩
      · exact ⟨e, Or.inr ⟨hm, hk⟩, heq⟩

theorem projectForFileName_of_empty (self : KateProjectPlugin) (fs : FileSystem)
    (fileName : String) (h : (fs.canonicalFilePath fileName).isEmpty = true) :
    self.projectForFileName fs fileName = (none, self) := by
  unfold KateProjectPlugin.projectForFileName
  simp only [h, if_true]

theorem projectForFileName_of_contains (self : KateProjectPlugin) (fs : FileSystem)
    (fileName : String) (h : (fs.canonicalFilePath fileName).isEmpty = false)
    (hc : KateProjectPlugin.mapContains self.m_fileName2Project
      (fs.canonicalFilePath fileName) = true) :
    self.projectForFileName fs fileName
      = (KateProjectPlugin.mapValue self.m_fileName2Project (fs.canonicalFilePath fileName),
          self) := by
  unfold KateProjectPlugin.projectForFileName
  simp only [h, hc, if_true, Bool.false_eq_true, if_false]

theorem projectForFileName_of_load_fails (self : KateProjectPlugin) (fs : FileSystem)
    (fileName : String) (h : (fs.canonicalFilePath fileName).isEmpty = false)
    (hc : KateProjectPlugin.mapContains self.m_fileName2Project
      (fs.canonicalFilePath fileName) = false)
    (hl : fs.load (fs.canonicalFilePath fileName) = false) :
    self.projectForFileName fs fileName
      = (none, { self with allocated := self.allocated + 1,
                           deleteLater := self.allocated :: self.deleteLater }) := by
  unfold KateProjectPlugin.projectForFileName
  simp only [h, hc, hl, Bool.false_eq_true, if_false, Bool.not_false, if_true]

theorem projectForFileName_of_load (self : KateProjectPlugin) (fs : FileSystem)
    (fileName : String) (h : (fs.canonicalFilePath fileName).isEmpty = false)
    (hc : KateProjectPlugin.mapContains self.m_fileName2Project
      (fs.canonicalFilePath fileName) = false)
    (hl : fs.load (fs.canonicalFilePath fileName) = true) :
    self.projectForFileName fs fileName
      = (some self.allocated,
          { self with
            allocated := self.allocated + 1
            m_fileName2Project := KateProjectPlugin.mapInsert self.m_fileName2Project
              (fs.canonicalFilePath fileName) self.allocated
            watchedPaths := KateProjectPlugin.addPath self.watchedPaths
              (fs.canonicalPath (fs.canonicalFilePath fileName))
            projectCreated := self.projectCreated ++ [self.allocated] }) := by
  unfold KateProjectPlugin.projectForFileName
  simp only [h, hc, hl, Bool.false_eq_true, if_false, Bool.not_true]

theorem isEmpty_false_of_mapContains (m : List (String × Nat)) (key : String)
    (hinv : KateProjectPlugin.mapContains m "" = false)
    (hc : KateProjectPlugin.mapContains m key = true) : key.isEmpty = false := by
  cases e : key.isEmpty with
  | false => rfl
  | true =>
    rw [(String.isEmpty_iff key).mp e, hinv] at hc
    exact absurd hc (by simp)

/-- C13: in a plugin whose map has no empty key (as in every state the plugin
reaches), `projectForFileName` looks up existing projects first: for a file
name whose canonical path is a key of `m_fileName2Project` it returns the stored
project and leaves the plugin as it was (nothing allocated or loaded, the map
unchanged, `projectCreated` not emitted). Hence two successive calls with the
same loadable project file return the same project, and the second call
creates nothing. The map has no empty key after the call either. -/
theorem projectForFileName_lookup_first (self : KateProjectPlugin) (fs : FileSystem)
    (fileName : String)
    (hinv : KateProjectPlugin.mapContains self.m_fileName2Project "" = false) :
    (KateProjectPlugin.mapContains self.m_fileName2Project (fs.canonicalFilePath fileName)
        = true →
      (∃ p, KateProjectPlugin.mapValue self.m_fileName2Project
          (fs.canonicalFilePath fileName) = some p ∧
        self.projectForFileName fs fileName = (some p, self))) ∧
    (fs.canonicalFilePath fileName ≠ "" → fs.load (fs.canonicalFilePath fileName) = true →
      (∃ p, (self.projectForFileName fs fileName).1 = some p ∧
        (self.projectForFileName fs fileName).2.projectForFileName fs fileName
          = (some p, (self.projectForFileName fs fileName).2))) ∧
    KateProjectPlugin.mapContains
      (self.projectForFileName fs fileName).2.m_fileName2Project "" = false := by
  have part1 : ∀ st : KateProjectPlugin,
      KateProjectPlugin.mapContains st.m_fileName2Project "" = false →
      KateProjectPlugin.mapContains st.m_fileName2Project (fs.canonicalFilePath fileName)
        = true →
      (∃ p, KateProjectPlugin.mapValue st.m_fileName2Project
          (fs.canonicalFilePath fileName) = some p ∧
        st.projectForFileName fs fileName = (some p, st)) := by
    intro st hst hc
    obtain ⟨p, hp⟩ := mapValue_of_mapContains _ _ hc
    refine ⟨p, hp, ?_⟩
    rw [projectForFileName_of_contains st fs fileName
      (isEmpty_false_of_mapContains _ _ hst hc) hc, hp]
  refine ⟨part1 self hinv, ?_, ?_⟩
  · intro hne hload
    have he := isEmpty_eq_false_of_ne _ hne
    cases hc : KateProjectPlugin.mapContains self.m_fileName2Project
        (fs.canonicalFilePath fileName) with
    | true =>
      obtain ⟨p, -, hp⟩ := part1 self hinv hc
      refine ⟨p, by rw [hp], ?_⟩
      rw [hp]
      exact hp
    | false =>
      rw [projectForFileName_of_load self fs fileName he hc hload]
      refine ⟨self.allocated, rfl, ?_⟩
      have hc2 : KateProjectPlugin.mapContains
          (KateProjectPlugin.mapInsert self.m_fileName2Project
            (fs.canonicalFilePath fileName) self.allocated)
          (fs.canonicalFilePath fileName) = true := by
        rw [mapContains_mapInsert]
        simp
      rw [projectForFileName_of_contains _ fs fileName he hc2]
      simp only [mapValue_mapInsert]
  · cases he : (fs.canonicalFilePath fileName).isEmpty with
    | true =>
      rw [projectForFileName_of_empty self fs fileName he]
      exact hinv
    | false =>
      cases hc : KateProjectPlugin.mapContains self.m_fileName2Project
          (fs.canonicalFilePath fileName) with
      | true =>
        rw [projectForFileName_of_contains self fs fileName he hc]
        exact hinv
      | false =>
        cases hl : fs.load (fs.canonicalFilePath fileName) with
        | false =>
          rw [projectForFileName_of_load_fails self fs fileName he hc hl]
          exact hinv
        | true =>
          rw [projectForFileName_of_load self fs fileName he hc hl]
          show KateProjectPlugin.mapContains (KateProjectPlugin.mapInsert _ _ _) "" = false
          rw [mapContains_mapInsert, hinv]
          have hne : fs.canonicalFilePath fileName ≠ "" := by
            intro x
            rw [x] at he
            exact absurd he (by decide)
          simp [hne]

/-- Witness of C13: loading `/p/.kateproject` twice into a fresh plugin gives
the same project both times. -/
theorem projectForFileName_lookup_first_witness :
    ∃ p, (KateProjectPlugin.initial.projectForFileName sampleFs "/p/.kateproject").1 = some p ∧
      (KateProjectPlugin.initial.projectForFileName sampleFs
          "/p/.kateproject").2.projectForFileName sampleFs "/p/.kateproject"
        = (some p, (KateProjectPlugin.initial.projectForFileName sampleFs
            "/p/.kateproject").2) :=
  (projectForFileName_lookup_first KateProjectPlugin.initial sampleFs "/p/.kateproject"
    (by decide)).2.1 (by decide) (by decide)

/-- C14: `projectForFileName` fails atomically. It returns `0` exactly when the
canonical file path is empty or the file is not in the map and loading it
fails; whenever it returns `0`, `m_fileName2Project`, the watched paths and the
emitted `projectCreated` signals are as before the call; whenever it returns a
project, that project is stored in `m_fileName2Project` under the canonical
path. -/
theorem projectForFileName_atomic (self : KateProjectPlugin) (fs : FileSystem)
    (fileName : String) :
    ((self.projectForFileName fs fileName).1 = none ↔
      (fs.canonicalFilePath fileName = "" ∨
        (KateProjectPlugin.mapContains self.m_fileName2Project
            (fs.canonicalFilePath fileName) = false ∧
          fs.load (fs.canonicalFilePath fileName) = false))) ∧
    ((self.projectForFileName fs fileName).1 = none →
      (self.projectForFileName fs fileName).2.m_fileName2Project = self.m_fileName2Project ∧
      (self.projectForFileName fs fileName).2.watchedPaths = self.watchedPaths ∧
      (self.projectForFileName fs fileName).2.projectCreated = self.projectCreated) ∧
    (∀ p, (self.projectForFileName fs fileName).1 = some p →
      KateProjectPlugin.mapValue (self.projectForFileName fs fileName).2.m_fileName2Project
        (fs.canonicalFilePath fileName) = some p) := by
  cases he : (fs.canonicalFilePath fileName).isEmpty with
  | true =>
    have hce := (String.isEmpty_iff _).mp he
    rw [projectForFileName_of_empty self fs fileName he]
    exact ⟨⟨fun _ => Or.inl hce, fun _ => rfl⟩, fun _ => ⟨rfl, rfl, rfl⟩,
      fun p hp => absurd hp (by simp)⟩
  | false =>
    have hne : fs.canonicalFilePath fileName ≠ "" := by
      intro x
      rw [x] at he
      exact absurd he (by decide)
    cases hc : KateProjectPlugin.mapContains self.m_fileName2Project
        (fs.canonicalFilePath fileName) with
    | true =>
      obtain ⟨q, hq⟩ := mapValue_of_mapContains _ _ hc
      rw [projectForFileName_of_contains self fs fileName he hc, hq]
      refine ⟨⟨fun h => absurd h (by simp), ?_⟩, fun h => absurd h (by simp), ?_⟩
      · rintro (h | ⟨h, -⟩)
        · exact absurd h hne
        · exact absurd h (by simp)
      · intro p hp
        exact hp
    | false =>
      cases hl : fs.load (fs.canonicalFilePath fileName) with
      | false =>
        rw [projectForFileName_of_load_fails self fs fileName he hc hl]
        exact ⟨⟨fun _ => Or.inr ⟨rfl, rfl⟩, fun _ => rfl⟩, fun _ => ⟨rfl, rfl, rfl⟩,
          fun p hp => absurd hp (by simp)⟩
      | true =>
        rw [projectForFileName_of_load self fs fileName he hc hl]
        refine ⟨⟨fun h => absurd h (by simp), ?_⟩, fun h => absurd h (by simp), ?_⟩
        · rintro (h | ⟨-, h⟩)
          · exact absurd h hne
          · exact absurd h (by simp)
        · intro p hp
          have hp2 : self.allocated = p := by simpa using hp
          rw [← hp2]
          exact mapValue_mapInsert _ _ _

/-- Witness of C14: a file that does not exist leaves a plugin that already
holds the sample project as it was. -/
theorem projectForFileName_atomic_witness :
    ((KateProjectPlugin.initial.projectForFileName sampleFs
        "/p/.kateproject").2.projectForFileName sampleFs "/gone/.kateproject").2.m_fileName2Project
      = (KateProjectPlugin.initial.projectForFileName sampleFs
          "/p/.kateproject").2.m_fileName2Project :=
  ((projectForFileName_atomic
    (KateProjectPlugin.initial.projectForFileName sampleFs "/p/.kateproject").2 sampleFs
    "/gone/.kateproject").2.1 (by decide)).1

/-! ## The project plugin: `projectForUrl` -/

/-- C12: for every url that is empty or is not a local file, `projectForUrl`
returns no project (`0`) whatever the fuel of the loop, examines no directory
and leaves the plugin, in particular `m_fileName2Project`, as it was. -/
theorem projectForUrl_not_local (self : KateProjectPlugin) (fs : FileSystem) (fuel : Nat)
    (url : KUrl) (h : url.isEmpty = true ∨ url.isLocalFile = false) :
    self.projectForUrl fs fuel url = some { project := none, plugin := self, examined := [] } := by
  unfold KateProjectPlugin.projectForUrl
  have hg : (url.isEmpty || ! url.isLocalFile) = true := by
    rcases h with h | h <;> simp [h]
  rw [if_pos hg]

/-- Witness of C12: a remote url on a plugin that holds the sample project. -/
theorem projectForUrl_not_local_witness :
    (KateProjectPlugin.initial.projectForFileName sampleFs "/p/.kateproject").2.projectForUrl
        sampleFs 0 { isEmpty := false, isLocalFile := false, toLocalFile := "" }
      = some { project := none,
               plugin := (KateProjectPlugin.initial.projectForFileName sampleFs
                 "/p/.kateproject").2,
               examined := [] } :=
  projectForUrl_not_local _ sampleFs 0 _ (Or.inr rfl)

/-! ## The upward search -/

theorem searchUpwards_terminates (fs : FileSystem) (dirs : List String)
    (hclosed : ∀ d ∈ dirs, ∀ up, fs.cdUp d = some up → up ∈ dirs) :
    ∀ (fuel : Nat) (seen : List String) (cur : String), cur ∈ dirs → seen ⊆ dirs →
      seen.Nodup → dirs.length + 1 ≤ fuel + seen.length →
      ∃ s, KateProjectPlugin.searchUpwards fs fuel seen cur = some s ∧
        s.seenDirectories.Nodup ∧ s.seenDirectories ⊆ dirs := by
  intro fuel
  induction fuel with
  | zero =>
    intro seen cur _ hsub hnd hlen
    have := (List.Nodup.subperm hnd hsub).length_le
    omega
  | succ n ih =>
    intro seen cur hcur hsub hnd hlen
    unfold KateProjectPlugin.searchUpwards
    by_cases hmem : cur ∈ seen
    · rw [if_pos hmem]
      exact ⟨_, rfl, hnd, hsub⟩
    · rw [if_neg hmem]
      have hnd2 : (cur :: seen).Nodup := List.nodup_cons.mpr ⟨hmem, hnd⟩
      have hsub2 : cur :: seen ⊆ dirs := List.cons_subset.mpr ⟨hcur, hsub⟩
      dsimp only
      by_cases hex : fs.entryExists cur ".kateproject" = true
      · rw [if_pos hex]
        exact ⟨_, rfl, hnd2, hsub2⟩
      · rw [if_neg hex]
        cases hup : fs.cdUp cur with
        | none => exact ⟨_, rfl, hnd2, hsub2⟩
        | some up =>
          exact ih (cur :: seen) up (hclosed cur hcur up hup) hsub2 hnd2
            (by simp only [List.length_cons]; omega)

theorem searchUpwards_mono (fs : FileSystem) (more : Nat) :
    ∀ (fuel : Nat) (seen : List String) (cur : String) (s : KateProjectPlugin.Search),
      KateProjectPlugin.searchUpwards fs fuel seen cur = some s →
      KateProjectPlugin.searchUpwards fs (fuel + more) seen cur = some s := by
  intro fuel
  induction fuel with
  | zero =>
    intro seen cur s h
    exact absurd h (by simp [KateProjectPlugin.searchUpwards])
  | succ n ih =>
    intro seen cur s h
    have e : n + 1 + more = (n + more) + 1 := by omega
    rw [e]
    unfold KateProjectPlugin.searchUpwards at h ⊢
    by_cases hmem : cur ∈ seen
    · rw [if_pos hmem] at h ⊢
      exact h
    · rw [if_neg hmem] at h ⊢
      dsimp only at h ⊢
      by_cases hex : fs.entryExists cur ".kateproject" = true
      · rw [if_pos hex] at h ⊢
        exact h
      · rw [if_neg hex] at h ⊢
        cases hup : fs.cdUp cur with
        | none =>
          rw [hup] at h
          exact h
        | some up =>
          rw [hup] at h
          exact ih (cur :: seen) up s h

theorem searchUpwards_trace (fs : FileSystem) :
    ∀ (fuel : Nat) (seen : List String) (cur : String) (s : KateProjectPlugin.Search),
      KateProjectPlugin.searchUpwards fs fuel seen cur = some s →
      ∃ newer, s.seenDirectories = newer ++ seen ∧
        ∀ d ∈ newer.tail, fs.entryExists d ".kateproject" = false ∧
          ∃ up, fs.cdUp d = some up := by
  intro fuel
  induction fuel with
  | zero =>
    intro seen cur s h
    exact absurd h (by simp [KateProjectPlugin.searchUpwards])
  | succ n ih =>
    intro seen cur s h
    unfold KateProjectPlugin.searchUpwards at h
    by_cases hmem : cur ∈ seen
    · rw [if_pos hmem] at h
      have hs : s = { found := none, seenDirectories := seen } := by simpa using h.symm
      exact ⟨[], by rw [hs]; rfl, by simp⟩
    · rw [if_neg hmem] at h
      dsimp only at h
      by_cases hex : fs.entryExists cur ".kateproject" = true
      · rw [if_pos hex] at h
        have hs : s = { found := some cur, seenDirectories := cur :: seen } := by
          simpa using h.symm
        exact ⟨[cur], by rw [hs]; rfl, by simp⟩
      · rw [if_neg hex] at h
        cases hup : fs.cdUp cur with
        | none =>
          rw [hup] at h
          have hs : s = { found := none, seenDirectories := cur :: seen } := by
            simpa using h.symm
          exact ⟨[cur], by rw [hs]; rfl, by simp⟩
        | some up =>
          rw [hup] at h
          obtain ⟨newer, h1, h2⟩ := ih (cur :: seen) up s h
          refine ⟨newer ++ [cur], by rw [h1]; simp, ?_⟩
          intro d hd
          cases newer with
          | nil => simp at hd
          | cons a rest =>
            have hd2 : d ∈ rest ++ [cur] := by simpa using hd
            rcases List.mem_append.mp hd2 with hd3 | hd3
            · exact h2 d (by simpa using hd3)
            · have hdc : d = cur := by simpa using hd3
              rw [hdc]
              exact ⟨by simpa using hex, up, hup⟩

theorem nthUp_mem_of_closed (fs : FileSystem) (S : List String)
    (hS : ∀ d ∈ S, ∀ up, fs.cdUp d = some up → up ∈ S) :
    ∀ (k : Nat) (d e : String), d ∈ S → KateProjectPlugin.nthUp fs k d = some e → e ∈ S := by
  intro k
  induction k with
  | zero =>
    intro d e hd h
    have : d = e := by simpa [KateProjectPlugin.nthUp] using h
    rw [← this]
    exact hd
  | succ n ih =>
    intro d e hd h
    unfold KateProjectPlugin.nthUp at h
    cases hup : fs.cdUp d with
    | none =>
      rw [hup] at h
      exact absurd h (by simp)
    | some up =>
      rw [hup] at h
      exact ih up e (hS d hd up hup) h

theorem searchUpwards_spec (fs : FileSystem) :
    ∀ (fuel : Nat) (seen : List String) (cur : String) (s : KateProjectPlugin.Search),
      (∀ d ∈ seen, fs.entryExists d ".kateproject" = false ∧
        ∀ up, fs.cdUp d = some up → up ∈ seen ∨ up = cur) →
      KateProjectPlugin.searchUpwards fs fuel seen cur = some s →
      (∀ dir, s.found = some dir →
        ∃ k, KateProjectPlugin.nthUp fs k cur = some dir ∧
          fs.entryExists dir ".kateproject" = true ∧
          ∀ j, j < k → ∀ e, KateProjectPlugin.nthUp fs j cur = some e →
            fs.entryExists e ".kateproject" = false) ∧
      (s.found = none →
        ∀ k e, KateProjectPlugin.nthUp fs k cur = some e →
          fs.entryExists e ".kateproject" = false) := by
  intro fuel
  induction fuel with
  | zero =>
    intro seen cur s _ h
    exact absurd h (by simp [KateProjectPlugin.searchUpwards])
  | succ n ih =>
    intro seen cur s hinv h
    unfold KateProjectPlugin.searchUpwards at h
    by_cases hmem : cur ∈ seen
    · rw [if_pos hmem] at h
      have hs : s = { found := none, seenDirectories := seen } := by simpa using h.symm
      rw [hs]
      refine ⟨fun dir hd => absurd hd (by simp), ?_⟩
      intro _ k e hk
      have hclosed : ∀ d ∈ seen, ∀ up, fs.cdUp d = some up → up ∈ seen := by
        intro d hd up hup
        rcases (hinv d hd).2 up hup with h1 | h1
        · exact h1
        · rw [h1]; exact hmem
      exact (hinv e (nthUp_mem_of_closed fs seen hclosed k cur e hmem hk)).1
    · rw [if_neg hmem] at h
      dsimp only at h
      by_cases hex : fs.entryExists cur ".kateproject" = true
      · rw [if_pos hex] at h
        have hs : s = { found := some cur, seenDirectories := cur :: seen } := by
          simpa using h.symm
        rw [hs]
        refine ⟨?_, fun hn => absurd hn (by simp)⟩
        intro dir hd
        have hdc : cur = dir := by simpa using hd
        rw [← hdc]
        exact ⟨0, rfl, hex, fun j hj => absurd hj (by omega)⟩
      · rw [if_neg hex] at h
        have hex2 : fs.entryExists cur ".kateproject" = false := by simpa using hex
        cases hup : fs.cdUp cur with
        | none =>
          rw [hup] at h
          have hs : s = { found := none, seenDirectories := cur :: seen } := by
            simpa using h.symm
          rw [hs]
          refine ⟨fun dir hd => absurd hd (by simp), ?_⟩
          intro _ k e hk
          cases k with
          | zero =>
            have : cur = e := by simpa [KateProjectPlugin.nthUp] using hk
            rw [← this]
            exact hex2
          | succ j =>
            unfold KateProjectPlugin.nthUp at hk
            rw [hup] at hk
            exact absurd hk (by simp)
        | some up =>
          rw [hup] at h
          have hinv2 : ∀ d ∈ cur :: seen, fs.entryExists d ".kateproject" = false ∧
              ∀ u, fs.cdUp d = some u → u ∈ cur :: seen ∨ u = up := by
            intro d hd
            rcases List.mem_cons.mp hd with hd1 | hd1
            · rw [hd1]
              refine ⟨hex2, ?_⟩
              intro u hu
              rw [hup] at hu
              exact Or.inr (by simpa using hu.symm)
            · refine ⟨(hinv d hd1).1, ?_⟩
              intro u hu
              rcases (hinv d hd1).2 u hu with h1 | h1
              · exact Or.inl (List.mem_cons_of_mem _ h1)
              · exact Or.inl (by rw [h1]; exact List.mem_cons_self _ _)
          obtain ⟨ih1, ih2⟩ := ih (cur :: seen) up s hinv2 h
          have hstep : ∀ k e, KateProjectPlugin.nthUp fs (k + 1) cur = some e →
              KateProjectPlugin.nthUp fs k up = some e := by
            intro k e hk
            unfold KateProjectPlugin.nthUp at hk
            rw [hup] at hk
            exact hk
          constructor
          · intro dir hd
            obtain ⟨k, hk1, hk2, hk3⟩ := ih1 dir hd
            refine ⟨k + 1, ?_, hk2, ?_⟩
            · show KateProjectPlugin.nthUp fs (k + 1) cur = some dir
              unfold KateProjectPlugin.nthUp
              rw [hup]
              exact hk1
            · intro j hj e he
              cases j with
              | zero =>
                have : cur = e := by simpa [KateProjectPlugin.nthUp] using he
                rw [← this]
                exact hex2
              | succ i => exact hk3 i (by omega) e (hstep i e he)
          · intro hn k e hk
            cases k with
            | zero =>
              have : cur = e := by simpa [KateProjectPlugin.nthUp] using hk
              rw [← this]
              exact hex2
            | succ i => exact ih2 hn i e (hstep i e hk)

theorem sampleFs_closed :
    ∀ d ∈ sampleDirs, ∀ up, sampleFs.cdUp d = some up → up ∈ sampleDirs := by
  intro d hd up hup
  simp only [sampleDirs, List.mem_cons, List.mem_singleton, List.not_mem_nil, or_false] at hd
  rcases hd with h | h | h
  · rw [h] at hup
    have : up = "/p" := by simpa [sampleFs] using hup.symm
    rw [this]
    decide
  · rw [h] at hup
    have : up = "/" := by simpa [sampleFs] using hup.symm
    rw [this]
    decide
  · rw [h] at hup
    have : up = "/" := by simpa [sampleFs] using hup.symm
    rw [this]
    decide

theorem projectForUrl_of_search (self : KateProjectPlugin) (fs : FileSystem) (fuel : Nat)
    (url : KUrl) (s : KateProjectPlugin.Search)
    (hg : (url.isEmpty || ! url.isLocalFile) = false)
    (hs : KateProjectPlugin.searchUpwards fs fuel [] (fs.absoluteDir url.toLocalFile) = some s) :
    self.projectForUrl fs fuel url
      = some (match s.found with
          | some dir =>
            { project := (self.projectForFileName fs (dir ++ "/.kateproject")).1,
              plugin := (self.projectForFileName fs (dir ++ "/.kateproject")).2,
              examined := s.seenDirectories }
          | none => { project := none, plugin := self, examined := s.seenDirectories }) := by
  unfold KateProjectPlugin.projectForUrl
  rw [if_neg (by simp [hg]), hs]
  cases s with
  | mk found seen => cases found <;> rfl

/-- C18: for every local file url, in a file system whose directories above the
file form a finite set `dirs` and with fuel for one more loop test than there
are directories, `projectForUrl` searches upwards from the directory of the
file: it returns `projectForFileName(dir + "/.kateproject")` for the nearest
directory `dir` (the directory of the file after `k` steps of `cdUp`, no
directory after fewer steps containing `.kateproject`) that contains
`.kateproject`, and it returns `0` and leaves the plugin as it was when no
directory reachable by `cdUp` contains one. -/
theorem projectForUrl_nearest_project (self : KateProjectPlugin) (fs : FileSystem)
    (fuel : Nat) (url : KUrl) (dirs : List String)
    (he : url.isEmpty = false) (hl : url.isLocalFile = true)
    (hstart : fs.absoluteDir url.toLocalFile ∈ dirs)
    (hclosed : ∀ d ∈ dirs, ∀ up, fs.cdUp d = some up → up ∈ dirs)
    (hfuel : dirs.length < fuel) :
    (∃ k dir examined,
      KateProjectPlugin.nthUp fs k (fs.absoluteDir url.toLocalFile) = some dir ∧
      fs.entryExists dir ".kateproject" = true ∧
      (∀ j, j < k → ∀ e,
        KateProjectPlugin.nthUp fs j (fs.absoluteDir url.toLocalFile) = some e →
          fs.entryExists e ".kateproject" = false) ∧
      self.projectForUrl fs fuel url
        = some { project := (self.projectForFileName fs (dir ++ "/.kateproject")).1,
                 plugin := (self.projectForFileName fs (dir ++ "/.kateproject")).2,
                 examined := examined }) ∨
    ((∀ k e, KateProjectPlugin.nthUp fs k (fs.absoluteDir url.toLocalFile) = some e →
        fs.entryExists e ".kateproject" = false) ∧
      ∃ examined, self.projectForUrl fs fuel url
        = some { project := none, plugin := self, examined := examined }) := by
  have hg : (url.isEmpty || ! url.isLocalFile) = false := by simp [he, hl]
  obtain ⟨s, hs, -, -⟩ := searchUpwards_terminates fs dirs hclosed fuel []
    (fs.absoluteDir url.toLocalFile) hstart (List.nil_subset _) List.nodup_nil
    (by simp only [List.length_nil]; omega)
  obtain ⟨sp1, sp2⟩ := searchUpwards_spec fs fuel [] (fs.absoluteDir url.toLocalFile) s
    (by intro d hd; exact absurd hd (List.not_mem_nil d)) hs
  have hres := projectForUrl_of_search self fs fuel url s hg hs
  cases hf : s.found with
  | some dir =>
    rw [hf] at hres
    obtain ⟨k, hk1, hk2, hk3⟩ := sp1 dir hf
    exact Or.inl ⟨k, dir, s.seenDirectories, hk1, hk2, hk3, hres⟩
  | none =>
    rw [hf] at hres
    exact Or.inr ⟨sp2 hf, s.seenDirectories, hres⟩

/-- Witness of C18: the file `/p/src/a.cpp` of the sample file system, whose
nearest project directory is `/p`. -/
theorem projectForUrl_nearest_project_witness :
    ∃ r, KateProjectPlugin.initial.projectForUrl sampleFs 4 sampleUrl = some r ∧
      r.project = (KateProjectPlugin.initial.projectForFileName sampleFs
        ("/p" ++ "/.kateproject")).1 := by
  rcases projectForUrl_nearest_project KateProjectPlugin.initial sampleFs 4 sampleUrl
    sampleDirs rfl rfl (by decide) sampleFs_closed (by decide) with h | h
  · exact ⟨_, rfl, by decide⟩
  · exact ⟨_, rfl, by decide⟩

/-- C19: the upward search of `projectForUrl` terminates for every url, in a
file system whose directories above the file form a finite set `dirs`: with
fuel for one more loop test than there are directories the call returns, and
more fuel does not change what it returns. Every loop iteration inserted a
directory that was not yet in `seenDirectories`, so no directory is examined
twice; and the loop went on only past directories without `.kateproject` on
which `cdUp` succeeded. -/
theorem projectForUrl_terminates (self : KateProjectPlugin) (fs : FileSystem)
    (fuel : Nat) (url : KUrl) (dirs : List String)
    (hstart : fs.absoluteDir url.toLocalFile ∈ dirs)
    (hclosed : ∀ d ∈ dirs, ∀ up, fs.cdUp d = some up → up ∈ dirs)
    (hfuel : dirs.length < fuel) :
    ∃ r, self.projectForUrl fs fuel url = some r ∧
      (∀ more, self.projectForUrl fs (fuel + more) url = some r) ∧
      r.examined.Nodup ∧
      r.examined ⊆ dirs ∧
      r.examined.length ≤ dirs.length ∧
      (∀ d ∈ r.examined.tail,
        fs.entryExists d ".kateproject" = false ∧ ∃ up, fs.cdUp d = some up) := by
  cases hg : (url.isEmpty || ! url.isLocalFile) with
  | true =>
    have hall : ∀ n, self.projectForUrl fs n url
        = some { project := none, plugin := self, examined := [] } := by
      intro n
      unfold KateProjectPlugin.projectForUrl
      rw [if_pos hg]
    exact ⟨_, hall fuel, fun more => hall _, List.nodup_nil, List.nil_subset _,
      Nat.zero_le _, fun d hd => absurd hd (by simp)⟩
  | false =>
    obtain ⟨s, hs, hnd, hsub⟩ := searchUpwards_terminates fs dirs hclosed fuel []
      (fs.absoluteDir url.toLocalFile) hstart (List.nil_subset _) List.nodup_nil
      (by simp only [List.length_nil]; omega)
    obtain ⟨newer, hn1, hn2⟩ := searchUpwards_trace fs fuel []
      (fs.absoluteDir url.toLocalFile) s hs
    have hn : s.seenDirectories = newer := by simpa using hn1
    have htail : ∀ d ∈ s.seenDirectories.tail,
        fs.entryExists d ".kateproject" = false ∧ ∃ up, fs.cdUp d = some up := by
      rw [hn]
      exact hn2
    have hlen : s.seenDirectories.length ≤ dirs.length :=
      (List.Nodup.subperm hnd hsub).length_le
    have hres := projectForUrl_of_search self fs fuel url s hg hs
    have hmore : ∀ more, self.projectForUrl fs (fuel + more) url = self.projectForUrl fs fuel url := by
      intro more
      rw [hres]
      exact projectForUrl_of_search self fs (fuel + more) url s hg
        (searchUpwards_mono fs more fuel [] _ s hs)
    refine ⟨_, hres, fun more => (hmore more).trans hres, ?_, ?_, ?_, ?_⟩
    · cases s.found <;> exact hnd
    · cases s.found <;> exact hsub
    · cases s.found <;> exact hlen
    · cases s.found <;> exact htail

/-- Witness of C19: the search from `/p/src/a.cpp` in the sample file system
returns with fuel 4. -/
theorem projectForUrl_terminates_witness :
    ∃ r, KateProjectPlugin.initial.projectForUrl sampleFs 4 sampleUrl = some r ∧
      r.examined.Nodup := by
  obtain ⟨r, h1, -, h3, -⟩ := projectForUrl_terminates KateProjectPlugin.initial sampleFs 4
    sampleUrl sampleDirs (by decide) sampleFs_closed (by decide)
  exact ⟨r, h1, h3⟩

/-! ## Highlight spans -/

theorem matchPositions_bounds :
    ∀ (t q : List Char) (i p : Nat), p ∈ kfts.matchPositions i q t → i ≤ p ∧ p < i + t.length := by
  intro t
  induction t with
  | nil =>
    intro q i p hp
    cases q <;> simp [kfts.matchPositions] at hp
  | cons c ts ih =>
    intro q i p hp
    cases q with
    | nil => simp [kfts.matchPositions] at hp
    | cons a qs =>
      unfold kfts.matchPositions at hp
      by_cases e : kfts.caseFold a = kfts.caseFold c
      · rw [if_pos e] at hp
        rcases List.mem_cons.mp hp with h | h
        · simp only [List.length_cons]
          omega
        · have := ih qs (i + 1) p h
          simp only [List.length_cons]
          omega
      · rw [if_neg e] at hp
        have := ih (a :: qs) (i + 1) p hp
        simp only [List.length_cons]
        omega

theorem matchPositions_increasing :
    ∀ (t q : List Char) (i : Nat), (kfts.matchPositions i q t).Pairwise (fun a b => a < b) := by
  intro t
  induction t with
  | nil =>
    intro q i
    cases q <;> simp [kfts.matchPositions]
  | cons c ts ih =>
    intro q i
    cases q with
    | nil => simp [kfts.matchPositions]
    | cons a qs =>
      unfold kfts.matchPositions
      by_cases e : kfts.caseFold a = kfts.caseFold c
      · rw [if_pos e]
        refine List.pairwise_cons.mpr ⟨?_, ih qs (i + 1)⟩
        intro b hb
        have := (matchPositions_bounds ts qs (i + 1) b hb).1
        omega
      · rw [if_neg e]
        exact ih (a :: qs) (i + 1)

theorem addToSpans_cons (p start len : Nat) (rest : List (Nat × Nat)) :
    kfts.addToSpans p ((start, len) :: rest)
      = if p + 1 = start then (p, len + 1) :: rest else (p, 1) :: (start, len) :: rest := rfl

theorem mem_addToSpans (p : Nat) (spans : List (Nat × Nat)) (sp : Nat × Nat)
    (h : sp ∈ kfts.addToSpans p spans) :
    (sp.1 = p ∧ 0 < sp.2) ∨ sp ∈ spans := by
  cases spans with
  | nil =>
    have : sp = (p, 1) := by simpa [kfts.addToSpans] using h
    rw [this]
    exact Or.inl ⟨rfl, Nat.one_pos⟩
  | cons hd rest =>
    obtain ⟨start, len⟩ := hd
    rw [addToSpans_cons] at h
    by_cases e : p + 1 = start
    · rw [if_pos e] at h
      rcases List.mem_cons.mp h with h1 | h1
      · rw [h1]
        exact Or.inl ⟨rfl, Nat.succ_pos _⟩
      · exact Or.inr (List.mem_cons_of_mem _ h1)
    · rw [if_neg e] at h
      rcases List.mem_cons.mp h with h1 | h1
      · rw [h1]
        exact Or.inl ⟨rfl, Nat.one_pos⟩
      · exact Or.inr h1

theorem spansOf_start_mem (ps : List Nat) :
    ∀ sp ∈ kfts.spansOf ps, sp.1 ∈ ps ∧ 0 < sp.2 := by
  induction ps with
  | nil =>
    intro sp h
    simp [kfts.spansOf] at h
  | cons p rest ih =>
    intro sp h
    unfold kfts.spansOf at h
    rcases mem_addToSpans p _ sp h with ⟨h1, h2⟩ | h1
    · exact ⟨by rw [h1]; exact List.mem_cons_self _ _, h2⟩
    · exact ⟨List.mem_cons_of_mem _ (ih sp h1).1, (ih sp h1).2⟩

theorem spansOf_separated (ps : List Nat) (hps : ps.Pairwise (fun a b => a < b)) :
    (kfts.spansOf ps).Pairwise (fun a b => a.1 + a.2 < b.1) := by
  induction ps with
  | nil => simp [kfts.spansOf]
  | cons p rest ih =>
    have hp := List.pairwise_cons.mp hps
    have hrest := ih hp.2
    have hstart : ∀ sp ∈ kfts.spansOf rest, p < sp.1 :=
      fun sp h => hp.1 sp.1 (spansOf_start_mem rest sp h).1
    unfold kfts.spansOf
    cases hsp : kfts.spansOf rest with
    | nil => simp [kfts.addToSpans]
    | cons hd tl =>
      obtain ⟨start, len⟩ := hd
      rw [hsp] at hrest hstart
      have htl := List.pairwise_cons.mp hrest
      rw [addToSpans_cons]
      by_cases e : p + 1 = start
      · rw [if_pos e]
        refine List.pairwise_cons.mpr ⟨?_, htl.2⟩
        intro b hb
        have := htl.1 b hb
        simp only at this ⊢
        omega
      · rw [if_neg e]
        refine List.pairwise_cons.mpr ⟨?_, hrest⟩
        intro b hb
        have h1 : p < start := hstart (start, len) (List.mem_cons_self _ _)
        rcases List.mem_cons.mp hb with hb1 | hb1
        · rw [hb1]
          simp only
          omega
        · have := htl.1 b hb1
          simp only at this ⊢
          omega

theorem flatMap_range_addToSpans (p : Nat) (spans : List (Nat × Nat)) :
    (kfts.addToSpans p spans).flatMap (fun s => List.range' s.1 s.2)
      = p :: spans.flatMap (fun s => List.range' s.1 s.2) := by
  cases spans with
  | nil => simp [kfts.addToSpans, List.range']
  | cons hd rest =>
    obtain ⟨start, len⟩ := hd
    rw [addToSpans_cons]
    by_cases e : p + 1 = start
    · rw [if_pos e]
      simp [List.flatMap_cons, List.range', e]
    · rw [if_neg e]
      simp [List.flatMap_cons, List.range']

theorem flatMap_range_spansOf (ps : List Nat) :
    (kfts.spansOf ps).flatMap (fun s => List.range' s.1 s.2) = ps := by
  induction ps with
  | nil => rfl
  | cons p rest ih =>
    unfold kfts.spansOf
    rw [flatMap_range_addToSpans, ih]

theorem take_succ_drop (t : List Char) (p l : Nat) :
    (t.drop p).take (l + 1) = (t[p]?).toList ++ (t.drop (p + 1)).take l := by
  by_cases hp : p < t.length
  · have hd : t.drop p = t.get ⟨p, hp⟩ :: t.drop (p + 1) := by
      simp
    have hg : t[p]? = some (t.get ⟨p, hp⟩) := by simp
    rw [hd, hg]
    rfl
  · have hd : t.drop p = [] := List.drop_eq_nil_of_le (by omega)
    have hd2 : t.drop (p + 1) = [] := List.drop_eq_nil_of_le (by omega)
    have hg : t[p]? = none := List.getElem?_eq_none (by omega)
    rw [hd, hd2, hg]
    simp

theorem highlighted_addToSpans (t : List Char) (p : Nat) (spans : List (Nat × Nat)) :
    kfts.highlighted t (kfts.addToSpans p spans)
      = (t[p]?).toList ++ kfts.highlighted t spans := by
  cases spans with
  | nil =>
    have := take_succ_drop t p 0
    simp only [kfts.highlighted, kfts.addToSpans, List.flatMap_cons, List.flatMap_nil,
      List.append_nil]
    rw [this]
    simp
  | cons hd rest =>
    obtain ⟨start, len⟩ := hd
    rw [addToSpans_cons]
    by_cases e : p + 1 = start
    · rw [if_pos e]
      simp only [kfts.highlighted, List.flatMap_cons]
      rw [take_succ_drop, e, List.append_assoc]
    · rw [if_neg e]
      have := take_succ_drop t p 0
      simp only [kfts.highlighted, List.flatMap_cons]
      rw [this]
      simp

theorem highlighted_spansOf (t : List Char) (ps : List Nat) :
    kfts.highlighted t (kfts.spansOf ps) = ps.filterMap (fun i => t[i]?) := by
  induction ps with
  | nil => rfl
  | cons p rest ih =>
    unfold kfts.spansOf
    rw [highlighted_addToSpans, ih, List.filterMap_cons]
    cases t[p]? <;> rfl

theorem matchPositions_chars :
    ∀ (t q pre : List Char), kfts.scan q t = true →
      ((kfts.matchPositions pre.length q t).filterMap (fun i => (pre ++ t)[i]?)).map
          kfts.caseFold = q.map kfts.caseFold := by
  intro t
  induction t with
  | nil =>
    intro q pre h
    cases q with
    | nil => simp [kfts.matchPositions]
    | cons a qs => simp [kfts.scan] at h
  | cons c ts ih =>
    intro q pre h
    cases q with
    | nil => simp [kfts.matchPositions]
    | cons a qs =>
      unfold kfts.scan at h
      unfold kfts.matchPositions
      have hlen : (pre ++ [c]).length = pre.length + 1 := by simp
      have happ : (pre ++ [c]) ++ ts = pre ++ c :: ts := by simp
      by_cases e : kfts.caseFold a = kfts.caseFold c
      · rw [if_pos e] at h
        rw [if_pos e]
        have hrec := ih qs (pre ++ [c]) h
        rw [hlen, happ] at hrec
        have hg : (pre ++ c :: ts)[pre.length]? = some c := by
          rw [List.getElem?_append_right (Nat.le_refl _)]
          simp
        rw [List.filterMap_cons, hg]
        simp only [List.map_cons]
        rw [hrec, e]
      · rw [if_neg e] at h
        rw [if_neg e]
        have hrec := ih (a :: qs) (pre ++ [c]) h
        rw [hlen, happ] at hrec
        exact hrec

/-- C11: for every query and text that match, the highlight spans (the runs of
the text the display strings wrap in the bold tags) are sorted by start offset
and do not overlap (each span ends before the next one starts), every span is
a non-empty run inside the text, and the highlighted characters of the text,
read in order, equal the query after case folding: they are exactly the
characters used for the subsequence match. -/
theorem highlightSpans_mark_match (query text : String)
    (h : kfts.matched query text = true) :
    (kfts.highlightSpans query text).Pairwise (fun a b => a.1 < b.1 ∧ a.1 + a.2 ≤ b.1) ∧
    (∀ s ∈ kfts.highlightSpans query text, 0 < s.2 ∧ s.1 + s.2 ≤ text.data.length) ∧
    (kfts.highlightSpans query text).flatMap (fun s => List.range' s.1 s.2)
      = kfts.matchPositions 0 query.data text.data ∧
    (kfts.highlighted text.data (kfts.highlightSpans query text)).map kfts.caseFold
      = query.data.map kfts.caseFold := by
  have hsep := spansOf_separated _ (matchPositions_increasing text.data query.data 0)
  have hflat := flatMap_range_spansOf (kfts.matchPositions 0 query.data text.data)
  refine ⟨?_, ?_, hflat, ?_⟩
  · refine List.Pairwise.imp ?_ hsep
    intro a b hab
    omega
  · intro sp hsp
    have hpos := (spansOf_start_mem _ sp hsp).2
    refine ⟨hpos, ?_⟩
    have hlast : sp.1 + (sp.2 - 1) ∈ kfts.matchPositions 0 query.data text.data := by
      rw [← hflat]
      refine List.mem_flatMap.mpr ⟨sp, hsp, ?_⟩
      rw [List.mem_range']
      exact ⟨sp.2 - 1, by omega, by omega⟩
    have := (matchPositions_bounds text.data query.data 0 _ hlast).2
    omega
  · unfold kfts.highlightSpans
    rw [highlighted_spansOf]
    have := matchPositions_chars text.data query.data [] h
    simpa using this

/-- Witness of C11: the query `mc` on the text `main.cpp` highlights `m` and
`c`. -/
theorem highlightSpans_mark_match_witness :
    kfts.matched "mc" "main.cpp" = true ∧
    (kfts.highlighted "main.cpp".data (kfts.highlightSpans "mc" "main.cpp")).map kfts.caseFold
      = "mc".data.map kfts.caseFold :=
  ⟨by decide, (highlightSpans_mark_match "mc" "main.cpp" (by decide)).2.2.2⟩

end Kate
